import Mathlib

/-!
# Verification of the wandr.ai Text Recovery Parser and Plan Orchestrator

Shallow embedding of `src/main.py`.  The embedded pieces are:

* `pyJsonLoads` — Python's `json.loads` on the JSON fragment actually used by
  the program (objects, arrays, strings with escapes, integers/decimals with
  exponents, `true`/`false`/`null`).  Numbers are represented exactly as a
  decimal mantissa/exponent pair `Json.num m e` denoting `m * 10 ^ e`, so no
  floating-point rounding is modelled; the representation is the one read from
  the text (so `100` and `1e2` get distinct representations even though Python
  compares them equal — no claim below compares values parsed from different
  spellings).  Python's non-standard acceptance of `NaN`/`Infinity` constants
  and the joining of `\uXXXX` surrogate pairs are not modelled; no claim
  involves those inputs.  Errors are modelled by `Except.error`, which stands
  for a raised `json.JSONDecodeError`.
* `parse_json` — the three-stage recovery routine of `src/main.py` lines 58-66.
* `plan_prompt`, `planEndpoint` — the `/api/plan` orchestrator (lines 76-100);
  the outbound Anthropic client is abstracted as an oracle giving each call's
  response text, with the number of issued calls reported.
* `serve` / `handleGet` — the catch-all route (lines 567-572) and the GET
  routing order of the FastAPI app.

All recursive functions take an explicit fuel argument and are structurally
recursive on it, so every definition evaluates by `rfl`/`decide` on concrete
input.  Canonical fuel values are always at least the input length plus one,
and every recursive call consumes at least one character per unit of fuel, so
the fuel-exhaustion branches are unreachable on canonical calls.
-/

/-- JSON values as produced by Python's `json.loads`:
`num m e` denotes the decimal number `m * 10 ^ e`. -/
inductive Json where
  | null : Json
  | bool : Bool → Json
  | num : Int → Int → Json
  | str : String → Json
  | arr : List Json → Json
  | obj : List (String × Json) → Json

/-- JSON whitespace, exactly the four characters skipped by Python's
`json` decoder. -/
def isJsonWs (c : Char) : Bool :=
  c = ' ' || c = '\t' || c = '\n' || c = '\r'

/-- Python `str.strip()` / regex `\s` whitespace (ASCII part: the additional
form-feed and vertical-tab characters; exotic Unicode spaces are not
modelled, no claim involves them). -/
def isPyWs (c : Char) : Bool :=
  c = ' ' || c = '\t' || c = '\n' || c = '\r' || c = '\x0b' || c = '\x0c'

/-- Drop leading JSON whitespace. -/
def skipWs (l : List Char) : List Char := l.dropWhile isJsonWs

/-- The backquote character of markdown fences. -/
def backquote : Char := Char.ofNat 96

/-- Characters that could extend a JSON number literal to the right. -/
def numCont (c : Char) : Bool :=
  c.isDigit || c = '.' || c = 'e' || c = 'E' || c = '+' || c = '-'

/-- Value of a hexadecimal digit. -/
def hexDigitVal (c : Char) : Option Nat :=
  if c.isDigit then some (c.toNat - 48)
  else if 'a' ≤ c && c ≤ 'f' then some (c.toNat - 87)
  else if 'A' ≤ c && c ≤ 'F' then some (c.toNat - 55)
  else none

/-- Decimal value of a digit string (most significant first). -/
def digitsToNat (ds : List Char) : Nat :=
  ds.foldl (fun a c => a * 10 + (c.toNat - 48)) 0

/-- The single-character string escapes of JSON. -/
def escChar (e : Char) : Option Char :=
  if e = '"' then some '"'
  else if e = '\\' then some '\\'
  else if e = '/' then some '/'
  else if e = 'b' then some '\x08'
  else if e = 'f' then some '\x0c'
  else if e = 'n' then some '\n'
  else if e = 'r' then some '\r'
  else if e = 't' then some '\t'
  else none

/-- Scan the body of a JSON string literal (the opening quote has already been
consumed), handling the standard escapes.  `acc` holds the decoded characters
in reverse.  Mirrors Python's strict scanner: raw control characters are
rejected; `\uXXXX` becomes the corresponding scalar (surrogate-pair joining
is not modelled; no claim involves it). -/
def parseStrAux : Nat → List Char → List Char → Option (List Char × List Char)
  | 0, _, _ => none
  | Nat.succ f, l, acc =>
    match l with
    | [] => none
    | c :: r =>
      if c = '"' then some (acc.reverse, r)
      else if c = '\\' then
        match r with
        | [] => none
        | e :: r2 =>
          if e = 'u' then
            match r2 with
            | h1 :: h2 :: h3 :: h4 :: r3 =>
              match hexDigitVal h1, hexDigitVal h2, hexDigitVal h3, hexDigitVal h4 with
              | some a, some b, some c1, some d =>
                parseStrAux f r3 (Char.ofNat (((a * 16 + b) * 16 + c1) * 16 + d) :: acc)
              | _, _, _, _ => none
            | _ => none
          else
            match escChar e with
            | some ec => parseStrAux f r2 (ec :: acc)
            | none => none
      else if c.toNat < 32 then none
      else parseStrAux f r (c :: acc)

/-- Integer part of a JSON number: `0` or a nonzero digit followed by digits
(the grammar `0|[1-9][0-9]*` of Python's `NUMBER_RE`; a leading `0` is never
followed by more digits of the same literal). -/
def parseIntPart (l : List Char) : Option (List Char × List Char) :=
  match l with
  | [] => none
  | c :: r =>
    if c = '0' then some (['0'], r)
    else if c.isDigit then
      some (c :: r.takeWhile Char.isDigit, r.dropWhile Char.isDigit)
    else none

/-- Optional fraction part `(\.[0-9]+)?`: consumed only when the dot is
followed by at least one digit, otherwise nothing is consumed. -/
def parseFracPart (l : List Char) : List Char × List Char :=
  match l with
  | [] => ([], [])
  | c :: r =>
    if c = '.' then
      match r.takeWhile Char.isDigit with
      | [] => ([], c :: r)
      | ds => (ds, r.dropWhile Char.isDigit)
    else ([], c :: r)

/-- Signed digit run of an exponent; yields exponent `0` at `orig` (nothing
consumed) when no digit is found at `src`. -/
def expDigits (sign : Int) (orig src : List Char) : Int × List Char :=
  match src.takeWhile Char.isDigit with
  | [] => (0, orig)
  | ds => (sign * (digitsToNat ds : Int), src.dropWhile Char.isDigit)

/-- Digits (with optional sign) of an exponent; falls back to `orig` with
exponent `0` when no digit follows, consuming nothing. -/
def parseExpDigits (orig : List Char) (r : List Char) : Int × List Char :=
  match r with
  | [] => (0, orig)
  | c :: r2 =>
    if c = '+' then expDigits 1 orig r2
    else if c = '-' then expDigits (-1) orig r2
    else expDigits 1 orig (c :: r2)

/-- Optional exponent part `([eE][-+]?[0-9]+)?`. -/
def parseExpPart (l : List Char) : Int × List Char :=
  match l with
  | [] => (0, [])
  | c :: r =>
    if c = 'e' || c = 'E' then parseExpDigits (c :: r) r
    else (0, c :: r)

/-- Mantissa and value assembly for a signed number whose sign has been
consumed. -/
def parseNumBody (neg : Bool) (l1 : List Char) : Option ((Int × Int) × List Char) :=
  match parseIntPart l1 with
  | none => none
  | some (ids, r1) =>
    match parseFracPart r1 with
    | (fds, r2) =>
      match parseExpPart r2 with
      | (ev, r3) =>
        some (((if neg then -(digitsToNat (ids ++ fds) : Int) else (digitsToNat (ids ++ fds) : Int)),
               ev - (fds.length : Int)), r3)

/-- A JSON number literal, as matched by Python's `NUMBER_RE`; returns the
mantissa/decimal-exponent pair and the unconsumed rest. -/
def parseNum (l : List Char) : Option ((Int × Int) × List Char) :=
  match l with
  | [] => none
  | c :: r =>
    if c = '-' then parseNumBody true r
    else parseNumBody false (c :: r)

/-- Python `dict` insertion: replace the value in place when the key exists,
append otherwise (duplicate keys in a JSON object collapse later-wins while
keeping the first occurrence's position). -/
def objInsert (acc : List (String × Json)) (k : String) (v : Json) : List (String × Json) :=
  match acc with
  | [] => [(k, v)]
  | (k1, v1) :: rest =>
    if k1 = k then (k1, v) :: rest else (k1, v1) :: objInsert rest k v

/-- Parser mode: a top-level value, or the member/element loop of a partially
consumed object/array (whose opening brace, and for non-empty containers any
leading whitespace, is already consumed). -/
inductive PMode where
  | top : PMode
  | arrCont : List Json → PMode
  | objCont : List (String × Json) → PMode

/-- The recursive core of Python's `json` scanner.  In `top` mode the input
must begin directly with a value (callers skip whitespace).  In the container
modes the input starts at a member key / element value. -/
def parseF : Nat → PMode → List Char → Option (Json × List Char)
  | 0, _, _ => none
  | Nat.succ f, PMode.top, l =>
    match l with
    | [] => none
    | c :: r =>
      if c = '{' then
        match skipWs r with
        | [] => none
        | d :: r2 =>
          if d = '}' then some (Json.obj [], r2)
          else parseF f (PMode.objCont []) (d :: r2)
      else if c = '[' then
        match skipWs r with
        | [] => none
        | d :: r2 =>
          if d = ']' then some (Json.arr [], r2)
          else parseF f (PMode.arrCont []) (d :: r2)
      else if c = '"' then
        match parseStrAux (r.length + 1) r [] with
        | some (cs, r1) => some (Json.str (String.mk cs), r1)
        | none => none
      else if c = 't' then
        match r with
        | c1 :: c2 :: c3 :: r2 =>
          if c1 = 'r' ∧ c2 = 'u' ∧ c3 = 'e' then some (Json.bool true, r2) else none
        | _ => none
      else if c = 'f' then
        match r with
        | c1 :: c2 :: c3 :: c4 :: r2 =>
          if c1 = 'a' ∧ c2 = 'l' ∧ c3 = 's' ∧ c4 = 'e' then some (Json.bool false, r2)
          else none
        | _ => none
      else if c = 'n' then
        match r with
        | c1 :: c2 :: c3 :: r2 =>
          if c1 = 'u' ∧ c2 = 'l' ∧ c3 = 'l' then some (Json.null, r2) else none
        | _ => none
      else
        match parseNum (c :: r) with
        | some ((m, e), r1) => some (Json.num m e, r1)
        | none => none
  | Nat.succ f, PMode.objCont acc, l =>
    match l with
    | [] => none
    | c :: r =>
      if c = '"' then
        match parseStrAux (r.length + 1) r [] with
        | some (kcs, r1) =>
          (match skipWs r1 with
           | [] => none
           | d :: r2 =>
             if d = ':' then
               match parseF f PMode.top (skipWs r2) with
               | some (v, r3) =>
                 (match skipWs r3 with
                  | [] => none
                  | d2 :: r4 =>
                    if d2 = ',' then
                      parseF f (PMode.objCont (objInsert acc (String.mk kcs) v)) (skipWs r4)
                    else if d2 = '}' then
                      some (Json.obj (objInsert acc (String.mk kcs) v), r4)
                    else none)
               | none => none
             else none)
        | none => none
      else none
  | Nat.succ f, PMode.arrCont acc, l =>
    match parseF f PMode.top l with
    | some (v, r1) =>
      (match skipWs r1 with
       | [] => none
       | d :: r2 =>
         if d = ',' then parseF f (PMode.arrCont (acc ++ [v])) (skipWs r2)
         else if d = ']' then some (Json.arr (acc ++ [v]), r2)
         else none)
    | none => none

/-- Python's `json.loads`: skip leading whitespace, read one value, allow only
trailing whitespace.  `Except.error` models a raised `JSONDecodeError`. -/
def pyJsonLoads (l : List Char) : Except String Json :=
  match parseF (l.length + 1) PMode.top (skipWs l) with
  | some (v, r) => if skipWs r = [] then Except.ok v else Except.error "Extra data"
  | none => Except.error "Expecting value"

example : pyJsonLoads "42".data = Except.ok (Json.num 42 0) := by rfl
example : pyJsonLoads "\x7b\"a\":1\x7d".data = Except.ok (Json.obj [("a", Json.num 1 0)]) := by rfl
example : pyJsonLoads " [1, -2.5e1, \"x\"] ".data =
    Except.ok (Json.arr [Json.num 1 0, Json.num (-25) 0, Json.str "x"]) := by rfl
example : pyJsonLoads "\x7b\"a\":1\x7d \x7b\"b\":2\x7d".data = Except.error "Extra data" := by rfl
example : pyJsonLoads "\x7bx\x7d".data = Except.error "Expecting value" := by rfl
example : pyJsonLoads "\x7b\"a\":\"\x7b\"\x7d".data =
    Except.ok (Json.obj [("a", Json.str "\x7b")]) := by rfl
example : pyJsonLoads "\x7b \"a\" : true , \"a\" : null \x7d".data =
    Except.ok (Json.obj [("a", Json.null)]) := by rfl
example : pyJsonLoads "01".data = Except.error "Extra data" := by rfl
example : pyJsonLoads "1.".data = Except.error "Extra data" := by rfl
example : pyJsonLoads "\x7b\"s\":\"a\\n\\\"b\\u0041\"\x7d".data =
    Except.ok (Json.obj [("s", Json.str "a\n\"bA")]) := by rfl

/-- Python `str.strip()`, left half: drop leading whitespace. -/
def pyStripL (l : List Char) : List Char := l.dropWhile isPyWs

/-- Python `str.strip()`, right half: drop trailing whitespace. -/
def pyStripR (l : List Char) : List Char := (l.reverse.dropWhile isPyWs).reverse

/-- Python `str.strip()`. -/
def pyStrip (l : List Char) : List Char := pyStripR (pyStripL l)

/-- `re.sub(r'```json\s*', '', ·)`: delete every occurrence of the literal
fence-with-tag followed by its greedy whitespace run, scanning left to right
and resuming after each deleted match, exactly as `re.sub` does.  The fuel
decreases at every step while at least one character is consumed, so the
canonical fuel `l.length` never runs out. -/
def replFJ : Nat → List Char → List Char
  | _, [] => []
  | 0, l => l
  | Nat.succ f, c :: r =>
    if List.take 7 (c :: r) = [backquote, backquote, backquote, 'j', 's', 'o', 'n'] then
      replFJ f ((List.drop 7 (c :: r)).dropWhile isPyWs)
    else c :: replFJ f r

/-- `re.sub(r'```\s*', '', ·)`: delete every remaining bare fence with its
trailing whitespace run. -/
def replF3 : Nat → List Char → List Char
  | _, [] => []
  | 0, l => l
  | Nat.succ f, c :: r =>
    if List.take 3 (c :: r) = [backquote, backquote, backquote] then
      replF3 f ((List.drop 3 (c :: r)).dropWhile isPyWs)
    else c :: replF3 f r

/-- First fence substitution at canonical fuel. -/
def replFenceJson (l : List Char) : List Char := replFJ l.length l

/-- Second fence substitution at canonical fuel. -/
def replFence (l : List Char) : List Char := replF3 l.length l

/-- The fence-stripped, trimmed text on which stages 2 and 3 operate:
`text = re.sub(r'```json\s*', '', text.strip())` followed by
`text = re.sub(r'```\s*', '', text).strip()`. -/
def cleanText (l : List Char) : List Char :=
  pyStrip (replFence (replFenceJson (pyStrip l)))

/-- Stage 2 input: `text[start:]` where `start` is the index of the first
`{` or `[`, or `0` when there is none (`next((i for i, c in enumerate(text)
if c in '{['), 0)`). -/
def stage2Input (l : List Char) : List Char :=
  match l.dropWhile (fun c => !(c = '{' || c = '[')) with
  | [] => l
  | tl => tl

/-- Stage 3 span: `re.search(r'{.*}', text, re.DOTALL)` — with a greedy
dot-all `.*` this matches from the first `{` that is followed by some later
`}` through the last `}` of the whole text, or fails. -/
def braceSpan (l : List Char) : Option (List Char) :=
  match l.dropWhile (fun c => !(c = '{')) with
  | [] => none
  | l1 =>
    match (l1.reverse.dropWhile (fun c => !(c = '}'))).reverse with
    | [] => none
    | l2 => some l2

/-- The Text Recovery Parser `parse_json` of `src/main.py` lines 58-66, on
character lists.  `Except.error` models an uncaught exception: note that the
stage-3 `json.loads(m.group())` sits outside the `try`, so its failure
propagates to the caller. -/
def parseJsonL (text : List Char) : Except String Json :=
  match pyJsonLoads (stage2Input (cleanText text)) with
  | Except.ok v => Except.ok v
  | Except.error _ =>
    match braceSpan (cleanText text) with
    | some span => pyJsonLoads span
    | none => Except.ok (Json.obj [])

/-- `parse_json` on strings. -/
def parse_json (text : String) : Except String Json := parseJsonL text.data

/-- Discriminator: `true` when the call raised (returned exceptionally). -/
def isRaise (e : Except String Json) : Bool :=
  match e with
  | Except.error _ => true
  | Except.ok _ => false

example : parse_json "" = Except.ok (Json.obj []) := by rfl
example : parse_json "no json here" = Except.ok (Json.obj []) := by rfl
example : parse_json "```json\n\x7b\"a\":1\x7d\n```" =
    Except.ok (Json.obj [("a", Json.num 1 0)]) := by rfl
example : parse_json "Here you go: \x7b\"a\":1\x7d Hope that helps!" =
    Except.ok (Json.obj [("a", Json.num 1 0)]) := by rfl
example : parse_json "\x7b\"a\":1\x7d \x7b\"b\":2\x7d" = Except.error "Extra data" := by rfl
example : parse_json "\x7bx\x7d" = Except.error "Expecting value" := by rfl
example : parse_json "42" = Except.ok (Json.num 42 0) := by rfl
example : parse_json "\x7b\"a\":\"\x7b\"\x7d" =
    Except.ok (Json.obj [("a", Json.str "\x7b")]) := by rfl
example : parse_json "x```json\ny``` z" = Except.ok (Json.obj []) := by rfl
example : parse_json "\x7b\"k\":\"a``` b\"\x7d" =
    Except.ok (Json.obj [("k", Json.str "ab")]) := by rfl
example : parse_json "Use \x7bthis\x7d: \x7b\"a\":1\x7d" = Except.error "Expecting value" := by rfl

/-! ## Muncher lemmas -/

theorem dropWhile_append_of_ne_nil {p : Char → Bool} {a : List Char} (b : List Char)
    (h : a.dropWhile p ≠ []) : (a ++ b).dropWhile p = a.dropWhile p ++ b := by
  induction a with
  | nil => simp [List.dropWhile] at h
  | cons c t ih =>
    by_cases hc : p c
    · simp only [List.dropWhile_cons, hc, if_true] at h
      simp only [List.cons_append, List.dropWhile_cons, hc, if_true]
      exact ih h
    · simp [List.dropWhile_cons, hc]

theorem takeWhile_append_of_ne_nil {p : Char → Bool} {a : List Char} (b : List Char)
    (h : a.dropWhile p ≠ []) : (a ++ b).takeWhile p = a.takeWhile p := by
  induction a with
  | nil => simp [List.dropWhile] at h
  | cons c t ih =>
    by_cases hc : p c
    · simp only [List.dropWhile_cons, hc, if_true] at h
      simp [List.takeWhile_cons, hc, ih h]
    · simp [List.takeWhile_cons, hc]

theorem dropWhile_append_of_nil {p : Char → Bool} {a : List Char} (b : List Char)
    (h : a.dropWhile p = []) : (a ++ b).dropWhile p = b.dropWhile p := by
  induction a with
  | nil => simp
  | cons c t ih =>
    by_cases hc : p c
    · simp only [List.dropWhile_cons, hc, if_true] at h
      simp [List.dropWhile_cons, hc, ih h]
    · simp [List.dropWhile_cons, hc] at h

theorem takeWhile_append_of_nil {p : Char → Bool} {a : List Char} (b : List Char)
    (h : a.dropWhile p = []) : (a ++ b).takeWhile p = a ++ b.takeWhile p := by
  induction a with
  | nil => simp
  | cons c t ih =>
    by_cases hc : p c
    · simp only [List.dropWhile_cons, hc, if_true] at h
      simp [List.takeWhile_cons, hc, ih h]
    · simp [List.dropWhile_cons, hc] at h

theorem dropWhile_head_false {p : Char → Bool} {l t : List Char} {c : Char}
    (h : l.dropWhile p = c :: t) : p c = false := by
  induction l with
  | nil => simp [List.dropWhile] at h
  | cons d u ih =>
    by_cases hd : p d
    · simp only [List.dropWhile_cons, hd, if_true] at h
      exact ih h
    · simp only [List.dropWhile_cons, hd, if_false] at h
      cases h
      simpa using hd

theorem dropWhile_cons_of_false {p : Char → Bool} {c : Char} (t : List Char)
    (h : p c = false) : (c :: t).dropWhile p = c :: t := by
  simp [List.dropWhile_cons, h]

theorem dropWhile_suffix_decomp {p : Char → Bool} (l : List Char) :
    ∃ a, l = a ++ l.dropWhile p := by
  induction l with
  | nil => exact ⟨[], rfl⟩
  | cons c t ih =>
    by_cases hc : p c
    · obtain ⟨a, ha⟩ := ih
      refine ⟨c :: a, ?_⟩
      simp only [List.dropWhile_cons, hc, if_true, List.cons_append]
      exact congrArg (c :: ·) ha
    · exact ⟨[], by simp [List.dropWhile_cons, hc]⟩

theorem dropWhile_all_of_nil {p : Char → Bool} {l : List Char}
    (h : l.dropWhile p = []) : ∀ c ∈ l, p c = true := by
  induction l with
  | nil => intro c hc; cases hc
  | cons d u ih =>
    by_cases hd : p d
    · simp only [List.dropWhile_cons, hd, if_true] at h
      intro c hc
      rcases List.mem_cons.1 hc with rfl | hc
      · exact hd
      · exact ih h c hc
    · simp [List.dropWhile_cons, hd] at h

theorem dropWhile_ne_nil_of_mem {p : Char → Bool} {l : List Char} {c : Char}
    (hc : c ∈ l) (hp : p c = false) : l.dropWhile p ≠ [] := by
  intro h
  have := dropWhile_all_of_nil h c hc
  rw [hp] at this
  cases this

/-! ## String-literal scanner lemmas -/

theorem parseStrAux_zero (l acc : List Char) : parseStrAux 0 l acc = none := rfl

theorem parseStrAux_nil (f : Nat) (acc : List Char) : parseStrAux (f + 1) [] acc = none := rfl

theorem parseStrAux_cons (f : Nat) (c : Char) (r acc : List Char) :
    parseStrAux (f + 1) (c :: r) acc =
      (if c = '"' then some (acc.reverse, r)
       else if c = '\\' then
         match r with
         | [] => none
         | e :: r2 =>
           if e = 'u' then
             match r2 with
             | h1 :: h2 :: h3 :: h4 :: r3 =>
               match hexDigitVal h1, hexDigitVal h2, hexDigitVal h3, hexDigitVal h4 with
               | some a, some b, some c1, some d =>
                 parseStrAux f r3 (Char.ofNat (((a * 16 + b) * 16 + c1) * 16 + d) :: acc)
               | _, _, _, _ => none
             | _ => none
           else
             match escChar e with
             | some ec => parseStrAux f r2 (ec :: acc)
             | none => none
       else if c.toNat < 32 then none
       else parseStrAux f r (c :: acc)) := rfl

theorem parseStrAux_mono {f : Nat} {l acc : List Char} {res : List Char × List Char}
    (h : parseStrAux f l acc = some res) :
    parseStrAux (f + 1) l acc = some res := by
  induction f generalizing l acc with
  | zero => rw [parseStrAux_zero] at h; cases h
  | succ f ih =>
    cases l with
    | nil => rw [parseStrAux_nil] at h; cases h
    | cons c r =>
      rw [parseStrAux_cons] at h
      rw [parseStrAux_cons]
      by_cases h1 : c = '"'
      · simpa [h1] using h
      · by_cases h2 : c = '\\'
        · simp only [if_neg h1, if_pos h2] at h ⊢
          cases r with
          | nil => cases h
          | cons e r2 =>
            simp only at h ⊢
            by_cases h3 : e = 'u'
            · simp only [if_pos h3] at h ⊢
              match r2 with
              | [] => cases h
              | [_] => cases h
              | [_, _] => cases h
              | [_, _, _] => cases h
              | h1c :: h2c :: h3c :: h4c :: r3 =>
                simp only at h ⊢
                rcases hx1 : hexDigitVal h1c with _ | a <;>
                  rcases hx2 : hexDigitVal h2c with _ | b <;>
                    rcases hx3 : hexDigitVal h3c with _ | c1 <;>
                      rcases hx4 : hexDigitVal h4c with _ | d <;>
                        simp only [hx1, hx2, hx3, hx4] at h ⊢ <;> first
                          | cases h
                          | exact ih h
            · simp only [if_neg h3] at h ⊢
              rcases he : escChar e with _ | ec <;> simp only [he] at h ⊢
              · cases h
              · exact ih h
        · simp only [if_neg h1, if_neg h2] at h ⊢
          by_cases h4 : c.toNat < 32
          · rw [if_pos h4] at h; cases h
          · rw [if_neg h4] at h ⊢
            exact ih h

theorem parseStrAux_le {f g : Nat} {l acc : List Char} {res : List Char × List Char}
    (hle : f ≤ g) (h : parseStrAux f l acc = some res) :
    parseStrAux g l acc = some res := by
  induction g with
  | zero =>
    have : f = 0 := Nat.le_zero.1 hle
    subst this
    exact h
  | succ g ih =>
    rcases Nat.lt_or_ge f (g + 1) with hf | hf
    · exact parseStrAux_mono (ih (Nat.lt_succ_iff.1 hf))
    · have : f = g + 1 := Nat.le_antisymm hle hf
      subst this
      exact h

theorem parseStrAux_ext {f : Nat} {l acc ext cs r : List Char}
    (h : parseStrAux f l acc = some (cs, r)) :
    parseStrAux f (l ++ ext) acc = some (cs, r ++ ext) := by
  induction f generalizing l acc with
  | zero => rw [parseStrAux_zero] at h; cases h
  | succ f ih =>
    cases l with
    | nil => rw [parseStrAux_nil] at h; cases h
    | cons c r0 =>
      rw [parseStrAux_cons] at h
      rw [List.cons_append, parseStrAux_cons]
      by_cases h1 : c = '"'
      · rw [if_pos h1] at h
        cases h
        rw [if_pos h1]
      · by_cases h2 : c = '\\'
        · simp only [if_neg h1, if_pos h2] at h ⊢
          cases r0 with
          | nil => cases h
          | cons e r2 =>
            simp only [List.cons_append] at h ⊢
            by_cases h3 : e = 'u'
            · simp only [if_pos h3] at h ⊢
              match r2 with
              | [] => cases h
              | [_] => cases h
              | [_, _] => cases h
              | [_, _, _] => cases h
              | h1c :: h2c :: h3c :: h4c :: r3 =>
                simp only [List.cons_append] at h ⊢
                rcases hx1 : hexDigitVal h1c with _ | a <;>
                  rcases hx2 : hexDigitVal h2c with _ | b <;>
                    rcases hx3 : hexDigitVal h3c with _ | c1 <;>
                      rcases hx4 : hexDigitVal h4c with _ | d <;>
                        simp only [hx1, hx2, hx3, hx4] at h ⊢ <;> first
                          | cases h
                          | exact ih h
            · simp only [if_neg h3] at h ⊢
              rcases he : escChar e with _ | ec <;> simp only [he] at h ⊢
              · cases h
              · exact ih h
        · simp only [if_neg h1, if_neg h2] at h ⊢
          by_cases h4 : c.toNat < 32
          · rw [if_pos h4] at h; cases h
          · rw [if_neg h4] at h ⊢
            exact ih h

theorem parseStrAux_suffix {f : Nat} {l acc cs r : List Char}
    (h : parseStrAux f l acc = some (cs, r)) : ∃ a, l = a ++ r := by
  induction f generalizing l acc with
  | zero => rw [parseStrAux_zero] at h; cases h
  | succ f ih =>
    cases l with
    | nil => rw [parseStrAux_nil] at h; cases h
    | cons c r0 =>
      rw [parseStrAux_cons] at h
      by_cases h1 : c = '"'
      · rw [if_pos h1] at h
        cases h
        exact ⟨[c], rfl⟩
      · by_cases h2 : c = '\\'
        · simp only [if_neg h1, if_pos h2] at h
          cases r0 with
          | nil => cases h
          | cons e r2 =>
            simp only at h
            by_cases h3 : e = 'u'
            · simp only [if_pos h3] at h
              match r2 with
              | [] => cases h
              | [_] => cases h
              | [_, _] => cases h
              | [_, _, _] => cases h
              | h1c :: h2c :: h3c :: h4c :: r3 =>
                simp only at h
                rcases hx1 : hexDigitVal h1c with _ | a <;>
                  rcases hx2 : hexDigitVal h2c with _ | b <;>
                    rcases hx3 : hexDigitVal h3c with _ | c1 <;>
                      rcases hx4 : hexDigitVal h4c with _ | d <;>
                        simp only [hx1, hx2, hx3, hx4] at h <;> first
                          | cases h
                          | (obtain ⟨a0, ha0⟩ := ih h
                             exact ⟨c :: e :: h1c :: h2c :: h3c :: h4c :: a0, by
                               simp [ha0]⟩)
            · simp only [if_neg h3] at h
              rcases he : escChar e with _ | ec <;> simp only [he] at h
              · cases h
              · obtain ⟨a0, ha0⟩ := ih h
                exact ⟨c :: e :: a0, by simp [ha0]⟩
        · simp only [if_neg h1, if_neg h2] at h
          by_cases h4 : c.toNat < 32
          · rw [if_pos h4] at h; cases h
          · rw [if_neg h4] at h
            obtain ⟨a0, ha0⟩ := ih h
            exact ⟨c :: a0, by simp [ha0]⟩

/-! ## Number lexer lemmas -/

/-- The remainder starts with a character that cannot extend a number
literal: the lexing decision there is stable under extension. -/
def stopTok (r : List Char) : Prop := ∃ c t, r = c :: t ∧ numCont c = false

theorem takeWhile_eq_self_of_dropWhile_nil {p : Char → Bool} {l : List Char}
    (h : l.dropWhile p = []) : l.takeWhile p = l := by
  induction l with
  | nil => rfl
  | cons c t ih =>
    by_cases hc : p c
    · simp only [List.dropWhile_cons, hc, if_true] at h
      simp [List.takeWhile_cons, hc, ih h]
    · simp [List.dropWhile_cons, hc] at h

theorem takeWhile_nil_head {p : Char → Bool} {l : List Char} (h : l.takeWhile p = []) :
    l = [] ∨ ∃ d t, l = d :: t ∧ p d = false := by
  cases l with
  | nil => exact Or.inl rfl
  | cons d t =>
    by_cases hd : p d
    · simp [List.takeWhile_cons, hd] at h
    · exact Or.inr ⟨d, t, rfl, by simpa using hd⟩

theorem parseIntPart_ext {l1 ids r1 : List Char} (ext : List Char)
    (h : parseIntPart l1 = some (ids, r1)) (hne : r1 ≠ []) :
    parseIntPart (l1 ++ ext) = some (ids, r1 ++ ext) := by
  cases l1 with
  | nil => simp [parseIntPart] at h
  | cons c r0 =>
    rw [List.cons_append]
    simp only [parseIntPart] at h ⊢
    by_cases h0 : c = '0'
    · rw [if_pos h0] at h ⊢
      cases h
      rfl
    · rw [if_neg h0] at h ⊢
      by_cases hd : c.isDigit
      · rw [if_pos hd] at h ⊢
        cases h
        have hdw : r0.dropWhile Char.isDigit ≠ [] := hne
        rw [takeWhile_append_of_ne_nil ext hdw, dropWhile_append_of_ne_nil ext hdw]
      · rw [if_neg hd] at h
        cases h


theorem expDigits_ext {sign ev : Int} {orig src r : List Char} {d0 : Char} {ds0 : List Char}
    (ext orig2 : List Char) (htw : src.takeWhile Char.isDigit = d0 :: ds0)
    (h : expDigits sign orig src = (ev, r)) (hne : r ≠ []) :
    expDigits sign orig2 (src ++ ext) = (ev, r ++ ext) := by
  simp only [expDigits, htw] at h
  rw [Prod.mk.injEq] at h
  obtain ⟨h1, h2⟩ := h
  have hdw : src.dropWhile Char.isDigit ≠ [] := by rw [h2]; exact hne
  simp only [expDigits, takeWhile_append_of_ne_nil ext hdw, htw,
    dropWhile_append_of_ne_nil ext hdw, h1, h2]

theorem parseExpPart_ext {l2 r : List Char} {ev : Int} (ext : List Char)
    (h : parseExpPart l2 = (ev, r)) (hst : stopTok r) :
    parseExpPart (l2 ++ ext) = (ev, r ++ ext) := by
  obtain ⟨cs, ts, hr, hcs⟩ := hst
  subst hr
  cases l2 with
  | nil =>
    simp only [parseExpPart] at h
    cases h
  | cons c2 t2 =>
    rw [List.cons_append]
    simp only [parseExpPart] at h ⊢
    by_cases hE : (c2 = 'e' || c2 = 'E') = true
    · rw [if_pos hE] at h
      rw [if_pos hE]
      have hc2 : numCont c2 = true := by
        rcases Bool.or_eq_true_iff.1 hE with h' | h' <;>
          (have h'' := of_decide_eq_true h'; subst h''; decide)
      cases t2 with
      | nil =>
        simp only [parseExpDigits] at h
        rw [Prod.mk.injEq] at h
        obtain ⟨h1, h2⟩ := h
        cases h2
        rw [hc2] at hcs
        cases hcs
      | cons c3 t3 =>
        rw [List.cons_append]
        simp only [parseExpDigits] at h ⊢
        by_cases hp : c3 = '+'
        · rw [if_pos hp] at h ⊢
          rcases htw : t3.takeWhile Char.isDigit with _ | ⟨d0, ds0⟩
          · simp only [expDigits, htw] at h
            rw [Prod.mk.injEq] at h
            obtain ⟨h1, h2⟩ := h
            cases h2
            rw [hc2] at hcs
            cases hcs
          · exact expDigits_ext ext _ htw h (List.cons_ne_nil _ _)
        · rw [if_neg hp] at h ⊢
          by_cases hm : c3 = '-'
          · rw [if_pos hm] at h ⊢
            rcases htw : t3.takeWhile Char.isDigit with _ | ⟨d0, ds0⟩
            · simp only [expDigits, htw] at h
              rw [Prod.mk.injEq] at h
              obtain ⟨h1, h2⟩ := h
              cases h2
              rw [hc2] at hcs
              cases hcs
            · exact expDigits_ext ext _ htw h (List.cons_ne_nil _ _)
          · rw [if_neg hm] at h ⊢
            rcases htw : (c3 :: t3).takeWhile Char.isDigit with _ | ⟨d0, ds0⟩
            · simp only [expDigits, htw] at h
              rw [Prod.mk.injEq] at h
              obtain ⟨h1, h2⟩ := h
              cases h2
              rw [hc2] at hcs
              cases hcs
            · rw [show c3 :: (t3 ++ ext) = (c3 :: t3) ++ ext from rfl]
              exact expDigits_ext ext _ htw h (List.cons_ne_nil _ _)
    · rw [if_neg hE] at h
      rw [if_neg hE]
      rw [Prod.mk.injEq] at h
      obtain ⟨h1, h2⟩ := h
      rw [h1, ← h2]
      simp

theorem parseNumBody_ext {neg : Bool} {l1 r : List Char} {nv : Int × Int} (ext : List Char)
    (h : parseNumBody neg l1 = some (nv, r)) (hst : stopTok r) :
    parseNumBody neg (l1 ++ ext) = some (nv, r ++ ext) := by
  obtain ⟨cs, ts, hr, hcs⟩ := hst
  subst hr
  rcases hip : parseIntPart l1 with _ | ⟨ids, r1⟩
  · simp only [parseNumBody, hip] at h
    exact Option.noConfusion h
  · have hr1ne : r1 ≠ [] := by
      intro hnil
      subst hnil
      simp only [parseNumBody, hip, parseFracPart, parseExpPart] at h
      rw [Option.some.injEq, Prod.mk.injEq] at h
      cases h.2
    rcases r1 with _ | ⟨c1, t1⟩
    · exact absurd rfl hr1ne
    have hipx : parseIntPart (l1 ++ ext) = some (ids, c1 :: (t1 ++ ext)) := by
      simpa using parseIntPart_ext ext hip hr1ne
    by_cases hdot : c1 = '.'
    · subst hdot
      rcases htw : t1.takeWhile Char.isDigit with _ | ⟨d0, ds0⟩
      · have hfr : parseFracPart ('.' :: t1) = ([], '.' :: t1) := by
          simp [parseFracPart, htw]
        have hep : parseExpPart ('.' :: t1) = (0, '.' :: t1) := by
          simp [parseExpPart]
        simp only [parseNumBody, hip, hfr, hep] at h
        rw [Option.some.injEq, Prod.mk.injEq] at h
        obtain ⟨h1, h2⟩ := h
        rw [List.cons.injEq] at h2
        rw [← h2.1] at hcs
        exact absurd hcs (by decide)
      · rcases hdwv : t1.dropWhile Char.isDigit with _ | ⟨c2, t2⟩
        · have hfr : parseFracPart ('.' :: t1) = (d0 :: ds0, []) := by
            simp [parseFracPart, htw, hdwv]
          simp only [parseNumBody, hip, hfr, parseExpPart] at h
          rw [Option.some.injEq, Prod.mk.injEq] at h
          cases h.2
        · have hdwne : t1.dropWhile Char.isDigit ≠ [] := by rw [hdwv]; simp
          have hfr : parseFracPart ('.' :: t1) = (d0 :: ds0, c2 :: t2) := by
            simp [parseFracPart, htw, hdwv]
          rcases hepv : parseExpPart (c2 :: t2) with ⟨ev, r3⟩
          simp only [parseNumBody, hip, hfr, hepv] at h
          rw [Option.some.injEq, Prod.mk.injEq] at h
          obtain ⟨h1, h2⟩ := h
          subst h2
          have hfrx : parseFracPart ('.' :: (t1 ++ ext)) = (d0 :: ds0, (c2 :: t2) ++ ext) := by
            have h1' := takeWhile_append_of_ne_nil (p := Char.isDigit) ext hdwne
            have h2' := dropWhile_append_of_ne_nil (p := Char.isDigit) ext hdwne
            rw [htw] at h1'
            rw [hdwv] at h2'
            simp [parseFracPart, h1', h2']
          have hepx : parseExpPart ((c2 :: t2) ++ ext) = (ev, (cs :: ts) ++ ext) :=
            parseExpPart_ext ext hepv ⟨cs, ts, rfl, hcs⟩
          simp only [List.cons_append] at hfrx hepx
          simp only [parseNumBody, hipx, hfrx, hepx, List.cons_append]
          rw [h1]
    · have hfr : parseFracPart (c1 :: t1) = ([], c1 :: t1) := by
        simp [parseFracPart, hdot]
      rcases hepv : parseExpPart (c1 :: t1) with ⟨ev, r3⟩
      simp only [parseNumBody, hip, hfr, hepv] at h
      rw [Option.some.injEq, Prod.mk.injEq] at h
      obtain ⟨h1, h2⟩ := h
      subst h2
      have hfrx : parseFracPart (c1 :: (t1 ++ ext)) = ([], c1 :: (t1 ++ ext)) := by
        simp [parseFracPart, hdot]
      have hepx : parseExpPart ((c1 :: t1) ++ ext) = (ev, (cs :: ts) ++ ext) :=
        parseExpPart_ext ext hepv ⟨cs, ts, rfl, hcs⟩
      simp only [List.cons_append] at hfrx hepx
      simp only [parseNumBody, hipx, hfrx, hepx, List.cons_append]
      rw [h1]

theorem parseNum_ext {l r : List Char} {nv : Int × Int} (ext : List Char)
    (h : parseNum l = some (nv, r)) (hst : stopTok r) :
    parseNum (l ++ ext) = some (nv, r ++ ext) := by
  cases l with
  | nil => simp [parseNum] at h
  | cons c r0 =>
    rw [List.cons_append]
    simp only [parseNum] at h ⊢
    by_cases hm : c = '-'
    · rw [if_pos hm] at h ⊢
      exact parseNumBody_ext ext h hst
    · rw [if_neg hm] at h ⊢
      rw [show c :: (r0 ++ ext) = (c :: r0) ++ ext from rfl]
      exact parseNumBody_ext ext h hst

/-! ## Suffix lemmas: every parser's remainder is a suffix of its input -/

theorem parseIntPart_suffix {l ids r1 : List Char} (h : parseIntPart l = some (ids, r1)) :
    ∃ a, l = a ++ r1 := by
  cases l with
  | nil => simp [parseIntPart] at h
  | cons c r0 =>
    simp only [parseIntPart] at h
    by_cases h0 : c = '0'
    · rw [if_pos h0] at h
      cases h
      exact ⟨[c], rfl⟩
    · rw [if_neg h0] at h
      by_cases hd : c.isDigit
      · rw [if_pos hd] at h
        cases h
        obtain ⟨a, ha⟩ := dropWhile_suffix_decomp (p := Char.isDigit) r0
        exact ⟨c :: a, by rw [List.cons_append, ← ha]⟩
      · rw [if_neg hd] at h
        cases h

theorem parseFracPart_suffix {l fds r2 : List Char} (h : parseFracPart l = (fds, r2)) :
    ∃ a, l = a ++ r2 := by
  cases l with
  | nil =>
    simp only [parseFracPart] at h
    cases h
    exact ⟨[], rfl⟩
  | cons c r0 =>
    simp only [parseFracPart] at h
    by_cases hdot : c = '.'
    · rw [if_pos hdot] at h
      rcases htw : r0.takeWhile Char.isDigit with _ | ⟨d0, ds0⟩ <;> rw [htw] at h
      · cases h
        exact ⟨[], rfl⟩
      · cases h
        obtain ⟨a, ha⟩ := dropWhile_suffix_decomp (p := Char.isDigit) r0
        exact ⟨c :: a, by rw [List.cons_append, ← ha]⟩
    · rw [if_neg hdot] at h
      cases h
      exact ⟨[], rfl⟩

theorem expDigits_suffix {sign ev : Int} {orig src r : List Char}
    (h : expDigits sign orig src = (ev, r)) : r = orig ∨ ∃ a, src = a ++ r := by
  simp only [expDigits] at h
  rcases htw : src.takeWhile Char.isDigit with _ | ⟨d0, ds0⟩ <;> rw [htw] at h
  · cases h
    exact Or.inl rfl
  · cases h
    exact Or.inr (dropWhile_suffix_decomp src)

theorem parseExpDigits_suffix {orig r0 r : List Char} {ev : Int}
    (h : parseExpDigits orig r0 = (ev, r)) : r = orig ∨ ∃ a, r0 = a ++ r := by
  cases r0 with
  | nil =>
    simp only [parseExpDigits] at h
    cases h
    exact Or.inl rfl
  | cons c r2 =>
    simp only [parseExpDigits] at h
    by_cases hp : c = '+'
    · rw [if_pos hp] at h
      rcases expDigits_suffix h with h' | ⟨a, ha⟩
      · exact Or.inl h'
      · exact Or.inr ⟨c :: a, by rw [List.cons_append, ← ha]⟩
    · rw [if_neg hp] at h
      by_cases hm : c = '-'
      · rw [if_pos hm] at h
        rcases expDigits_suffix h with h' | ⟨a, ha⟩
        · exact Or.inl h'
        · exact Or.inr ⟨c :: a, by rw [List.cons_append, ← ha]⟩
      · rw [if_neg hm] at h
        rcases expDigits_suffix h with h' | ⟨a, ha⟩
        · exact Or.inl h'
        · exact Or.inr ⟨a, ha⟩

theorem parseExpPart_suffix {l r : List Char} {ev : Int}
    (h : parseExpPart l = (ev, r)) : ∃ a, l = a ++ r := by
  cases l with
  | nil =>
    simp only [parseExpPart] at h
    cases h
    exact ⟨[], rfl⟩
  | cons c r0 =>
    simp only [parseExpPart] at h
    by_cases hE : (c = 'e' || c = 'E') = true
    · rw [if_pos hE] at h
      rcases parseExpDigits_suffix h with h' | ⟨a, ha⟩
      · exact ⟨[], h'.symm⟩
      · exact ⟨c :: a, by rw [List.cons_append, ← ha]⟩
    · rw [if_neg hE] at h
      cases h
      exact ⟨[], rfl⟩

theorem parseNumBody_suffix {neg : Bool} {l1 r : List Char} {nv : Int × Int}
    (h : parseNumBody neg l1 = some (nv, r)) : ∃ a, l1 = a ++ r := by
  rcases hip : parseIntPart l1 with _ | ⟨ids, r1⟩
  · simp only [parseNumBody, hip] at h
    exact Option.noConfusion h
  · rcases hfr : parseFracPart r1 with ⟨fds, r2⟩
    rcases hep : parseExpPart r2 with ⟨ev, r3⟩
    simp only [parseNumBody, hip, hfr, hep] at h
    rw [Option.some.injEq, Prod.mk.injEq] at h
    obtain ⟨a1, ha1⟩ := parseIntPart_suffix hip
    obtain ⟨a2, ha2⟩ := parseFracPart_suffix hfr
    obtain ⟨a3, ha3⟩ := parseExpPart_suffix hep
    refine ⟨a1 ++ a2 ++ a3, ?_⟩
    rw [← h.2, ha1, ha2, ha3]
    simp [List.append_assoc]

theorem parseNum_suffix {l r : List Char} {nv : Int × Int}
    (h : parseNum l = some (nv, r)) : ∃ a, l = a ++ r := by
  cases l with
  | nil => simp [parseNum] at h
  | cons c r0 =>
    simp only [parseNum] at h
    by_cases hm : c = '-'
    · rw [if_pos hm] at h
      obtain ⟨a, ha⟩ := parseNumBody_suffix h
      exact ⟨c :: a, by rw [List.cons_append, ← ha]⟩
    · rw [if_neg hm] at h
      obtain ⟨a, ha⟩ := parseNumBody_suffix h
      exact ⟨a, ha⟩

theorem suffix_trans {x y z : List Char} (h1 : ∃ a, x = a ++ y) (h2 : ∃ b, y = b ++ z) :
    ∃ c, x = c ++ z := by
  obtain ⟨a, ha⟩ := h1
  obtain ⟨b, hb⟩ := h2
  exact ⟨a ++ b, by rw [ha, hb, List.append_assoc]⟩

theorem suffix_cons {x y : List Char} (c : Char) (h : ∃ a, x = a ++ y) :
    ∃ b, c :: x = b ++ y := by
  obtain ⟨a, ha⟩ := h
  exact ⟨c :: a, by rw [ha]; rfl⟩

theorem suffix_refl (x : List Char) : ∃ a, x = a ++ x := ⟨[], rfl⟩

theorem suffix_skipWs_decomp (x : List Char) : ∃ a, x = a ++ skipWs x :=
  dropWhile_suffix_decomp (p := isJsonWs) x

theorem suffix_skipWs_cons {x r2 : List Char} {d : Char} (hsw : skipWs x = d :: r2) :
    ∃ a, x = a ++ r2 :=
  suffix_trans (suffix_skipWs_decomp x) ⟨[d], by rw [hsw]; rfl⟩

theorem suffix_skipWs {x y : List Char} (h : ∃ a, skipWs x = a ++ y) : ∃ b, x = b ++ y :=
  suffix_trans (suffix_skipWs_decomp x) h

theorem parseF_suffix {f : Nat} {m : PMode} {l r : List Char} {v : Json}
    (h : parseF f m l = some (v, r)) : ∃ a, l = a ++ r := by
  induction f generalizing m l v r with
  | zero => simp [parseF] at h
  | succ f ih =>
    cases m with
    | top =>
      cases l with
      | nil => simp [parseF] at h
      | cons c r0 =>
        simp only [parseF] at h
        by_cases h1 : c = '{'
        · rw [if_pos h1] at h
          rcases hsw : skipWs r0 with _ | ⟨d, r2⟩ <;> simp only [hsw] at h
          · exact Option.noConfusion h
          · by_cases hd : d = '}'
            · rw [if_pos hd] at h
              rw [Option.some.injEq, Prod.mk.injEq] at h
              exact suffix_cons c (h.2 ▸ suffix_skipWs_cons hsw)
            · rw [if_neg hd] at h
              exact suffix_cons c (suffix_skipWs (hsw ▸ ih h))
        · rw [if_neg h1] at h
          by_cases h2 : c = '['
          · rw [if_pos h2] at h
            rcases hsw : skipWs r0 with _ | ⟨d, r2⟩ <;> simp only [hsw] at h
            · exact Option.noConfusion h
            · by_cases hd : d = ']'
              · rw [if_pos hd] at h
                rw [Option.some.injEq, Prod.mk.injEq] at h
                exact suffix_cons c (h.2 ▸ suffix_skipWs_cons hsw)
              · rw [if_neg hd] at h
                exact suffix_cons c (suffix_skipWs (hsw ▸ ih h))
          · rw [if_neg h2] at h
            by_cases h3 : c = '"'
            · rw [if_pos h3] at h
              rcases hps : parseStrAux (r0.length + 1) r0 [] with _ | ⟨cs1, r1⟩ <;>
                simp only [hps] at h
              · exact Option.noConfusion h
              · rw [Option.some.injEq, Prod.mk.injEq] at h
                exact suffix_cons c (h.2 ▸ parseStrAux_suffix hps)
            · rw [if_neg h3] at h
              by_cases h4 : c = 't'
              · rw [if_pos h4] at h
                match r0 with
                | [] => exact Option.noConfusion h
                | [_] => exact Option.noConfusion h
                | [_, _] => exact Option.noConfusion h
                | c1 :: c2 :: c3 :: r2 =>
                  simp only at h
                  split at h
                  · rw [Option.some.injEq, Prod.mk.injEq] at h
                    exact ⟨[c, c1, c2, c3], by rw [← h.2]; rfl⟩
                  · exact Option.noConfusion h
              · rw [if_neg h4] at h
                by_cases h5 : c = 'f'
                · rw [if_pos h5] at h
                  match r0 with
                  | [] => exact Option.noConfusion h
                  | [_] => exact Option.noConfusion h
                  | [_, _] => exact Option.noConfusion h
                  | [_, _, _] => exact Option.noConfusion h
                  | c1 :: c2 :: c3 :: c4 :: r2 =>
                    simp only at h
                    split at h
                    · rw [Option.some.injEq, Prod.mk.injEq] at h
                      exact ⟨[c, c1, c2, c3, c4], by rw [← h.2]; rfl⟩
                    · exact Option.noConfusion h
                · rw [if_neg h5] at h
                  by_cases h6 : c = 'n'
                  · rw [if_pos h6] at h
                    match r0 with
                    | [] => exact Option.noConfusion h
                    | [_] => exact Option.noConfusion h
                    | [_, _] => exact Option.noConfusion h
                    | c1 :: c2 :: c3 :: r2 =>
                      simp only at h
                      split at h
                      · rw [Option.some.injEq, Prod.mk.injEq] at h
                        exact ⟨[c, c1, c2, c3], by rw [← h.2]; rfl⟩
                      · exact Option.noConfusion h
                  · rw [if_neg h6] at h
                    rcases hpn : parseNum (c :: r0) with _ | ⟨⟨mm, ee⟩, r1⟩ <;>
                      simp only [hpn] at h
                    · exact Option.noConfusion h
                    · rw [Option.some.injEq, Prod.mk.injEq] at h
                      exact h.2 ▸ parseNum_suffix hpn
    | objCont acc =>
      cases l with
      | nil => simp [parseF] at h
      | cons c r0 =>
        simp only [parseF] at h
        by_cases h1 : c = '"'
        · rw [if_pos h1] at h
          rcases hps : parseStrAux (r0.length + 1) r0 [] with _ | ⟨kcs, r1⟩ <;>
            simp only [hps] at h
          · exact Option.noConfusion h
          · rcases hsw1 : skipWs r1 with _ | ⟨d, r2⟩ <;> simp only [hsw1] at h
            · exact Option.noConfusion h
            · by_cases hd : d = ':'
              · rw [if_pos hd] at h
                rcases hpv : parseF f PMode.top (skipWs r2) with _ | ⟨v0, r3⟩ <;>
                  simp only [hpv] at h
                · exact Option.noConfusion h
                · rcases hsw3 : skipWs r3 with _ | ⟨d2, r4⟩ <;> simp only [hsw3] at h
                  · exact Option.noConfusion h
                  · by_cases hc2 : d2 = ','
                    · rw [if_pos hc2] at h
                      refine suffix_cons c (suffix_trans (parseStrAux_suffix hps) ?_)
                      refine suffix_trans (suffix_skipWs_cons hsw1) ?_
                      refine suffix_skipWs (suffix_trans (ih hpv) ?_)
                      refine suffix_trans (suffix_skipWs_cons hsw3) ?_
                      exact suffix_skipWs (ih h)
                    · rw [if_neg hc2] at h
                      by_cases hb2 : d2 = '}'
                      · rw [if_pos hb2] at h
                        rw [Option.some.injEq, Prod.mk.injEq] at h
                        refine suffix_cons c (suffix_trans (parseStrAux_suffix hps) ?_)
                        refine suffix_trans (suffix_skipWs_cons hsw1) ?_
                        refine suffix_skipWs (suffix_trans (ih hpv) ?_)
                        exact h.2 ▸ suffix_skipWs_cons hsw3
                      · rw [if_neg hb2] at h
                        exact Option.noConfusion h
              · rw [if_neg hd] at h
                exact Option.noConfusion h
        · rw [if_neg h1] at h
          exact Option.noConfusion h
    | arrCont acc =>
      rcases hpv : parseF f PMode.top l with _ | ⟨v0, r1⟩ <;> simp only [parseF, hpv] at h
      · exact Option.noConfusion h
      · rcases hsw1 : skipWs r1 with _ | ⟨d, r2⟩ <;> simp only [hsw1] at h
        · exact Option.noConfusion h
        · by_cases hd : d = ','
          · rw [if_pos hd] at h
            refine suffix_trans (ih hpv) ?_
            refine suffix_trans (suffix_skipWs_cons hsw1) ?_
            exact suffix_skipWs (ih h)
          · rw [if_neg hd] at h
            by_cases he : d = ']'
            · rw [if_pos he] at h
              rw [Option.some.injEq, Prod.mk.injEq] at h
              refine suffix_trans (ih hpv) ?_
              exact h.2 ▸ suffix_skipWs_cons hsw1
            · rw [if_neg he] at h
              exact Option.noConfusion h

/-! ## Extension: a successful parse is stable under appending text after the
remainder, provided the remainder (or the value shape) fixes the last token's
right boundary -/

/-- Condition under which appending `ext` beyond the remainder `r` cannot
change the parse result `v`: only a number literal has a greedy right
boundary, so for any other value no condition is needed. -/
def extCond (v : Json) (r ext : List Char) : Prop :=
  match v with
  | Json.num _ _ => ext = [] ∨ stopTok r
  | _ => True

theorem wsNotNumCont {c : Char} (h : isJsonWs c = true) : numCont c = false := by
  simp only [isJsonWs, Bool.or_eq_true, decide_eq_true_eq] at h
  rcases h with ((h | h) | h) | h <;> subst h <;> decide

theorem stopTok_of_skipWs_cons {x t : List Char} {d : Char} (hsw : skipWs x = d :: t)
    (hd : numCont d = false) : stopTok x := by
  cases x with
  | nil => simp [skipWs] at hsw
  | cons c t' =>
    by_cases hw : isJsonWs c = true
    · exact ⟨c, t', rfl, wsNotNumCont hw⟩
    · have heq : skipWs (c :: t') = c :: t' :=
        dropWhile_cons_of_false t' (by simpa using hw)
      rw [heq] at hsw
      cases hsw
      exact ⟨d, t, rfl, hd⟩

theorem extCond_of_stopTok {v : Json} {r ext : List Char} (hst : stopTok r) :
    extCond v r ext := by
  cases v <;> try trivial
  exact Or.inr hst

theorem skipWs_append_cons {x r2 ext : List Char} {d : Char} (hsw : skipWs x = d :: r2) :
    skipWs (x ++ ext) = d :: (r2 ++ ext) := by
  have hne : x.dropWhile isJsonWs ≠ [] := by
    rw [show x.dropWhile isJsonWs = skipWs x from rfl, hsw]
    simp
  have h2 := dropWhile_append_of_ne_nil (p := isJsonWs) ext hne
  show (x ++ ext).dropWhile isJsonWs = d :: (r2 ++ ext)
  rw [h2, show x.dropWhile isJsonWs = skipWs x from rfl, hsw]
  rfl

theorem parseF_top_nil_any (f : Nat) : parseF f PMode.top [] = none := by
  cases f <;> rfl

theorem parseF_objCont_nil_any (f : Nat) (acc : List (String × Json)) :
    parseF f (PMode.objCont acc) [] = none := by
  cases f <;> rfl

theorem parseF_arrCont_nil_any (f : Nat) (acc : List Json) :
    parseF f (PMode.arrCont acc) [] = none := by
  cases f with
  | zero => rfl
  | succ f => simp [parseF, parseF_top_nil_any]

theorem parseF_ext (ext : List Char) {f : Nat} {m : PMode} {l r : List Char} {v : Json}
    {g : Nat} (h : parseF f m l = some (v, r)) (hfg : f ≤ g) (hc : extCond v r ext) :
    parseF g m (l ++ ext) = some (v, r ++ ext) := by
  induction f generalizing g m l v r with
  | zero => simp [parseF] at h
  | succ f ih =>
    cases g with
    | zero => exact absurd hfg (by omega)
    | succ g =>
      have hfg' : f ≤ g := by omega
      cases m with
      | top =>
        cases l with
        | nil => simp [parseF] at h
        | cons c r0 =>
          rw [List.cons_append]
          simp only [parseF] at h ⊢
          by_cases h1 : c = '{'
          · rw [if_pos h1] at h ⊢
            rcases hsw : skipWs r0 with _ | ⟨d, r2⟩ <;> simp only [hsw] at h
            · exact Option.noConfusion h
            · simp only [skipWs_append_cons hsw]
              by_cases hd : d = '}'
              · rw [if_pos hd] at h ⊢
                rw [Option.some.injEq, Prod.mk.injEq] at h
                rw [← h.1, ← h.2]
              · rw [if_neg hd] at h ⊢
                have hx := ih h hfg' hc
                simpa using hx
          · rw [if_neg h1] at h ⊢
            by_cases h2 : c = '['
            · rw [if_pos h2] at h ⊢
              rcases hsw : skipWs r0 with _ | ⟨d, r2⟩ <;> simp only [hsw] at h
              · exact Option.noConfusion h
              · simp only [skipWs_append_cons hsw]
                by_cases hd : d = ']'
                · rw [if_pos hd] at h ⊢
                  rw [Option.some.injEq, Prod.mk.injEq] at h
                  rw [← h.1, ← h.2]
                · rw [if_neg hd] at h ⊢
                  have hx := ih h hfg' hc
                  simpa using hx
            · rw [if_neg h2] at h ⊢
              by_cases h3 : c = '"'
              · rw [if_pos h3] at h ⊢
                rcases hps : parseStrAux (r0.length + 1) r0 [] with _ | ⟨cs1, r1⟩ <;>
                  simp only [hps] at h
                · exact Option.noConfusion h
                · have hpsx : parseStrAux ((r0 ++ ext).length + 1) (r0 ++ ext) []
                      = some (cs1, r1 ++ ext) :=
                    parseStrAux_le (by simp only [List.length_append]; omega)
                      (parseStrAux_ext hps)
                  simp only [hpsx]
                  rw [Option.some.injEq, Prod.mk.injEq] at h
                  rw [← h.1, ← h.2]
              · rw [if_neg h3] at h ⊢
                by_cases h4 : c = 't'
                · rw [if_pos h4] at h ⊢
                  match r0 with
                  | [] => exact Option.noConfusion h
                  | [_] => exact Option.noConfusion h
                  | [_, _] => exact Option.noConfusion h
                  | c1 :: c2 :: c3 :: r2 =>
                    simp only [List.cons_append] at h ⊢
                    split at h
                    · rename_i hcond
                      rw [if_pos hcond]
                      rw [Option.some.injEq, Prod.mk.injEq] at h
                      rw [← h.1, ← h.2]
                    · exact Option.noConfusion h
                · rw [if_neg h4] at h ⊢
                  by_cases h5 : c = 'f'
                  · rw [if_pos h5] at h ⊢
                    match r0 with
                    | [] => exact Option.noConfusion h
                    | [_] => exact Option.noConfusion h
                    | [_, _] => exact Option.noConfusion h
                    | [_, _, _] => exact Option.noConfusion h
                    | c1 :: c2 :: c3 :: c4 :: r2 =>
                      simp only [List.cons_append] at h ⊢
                      split at h
                      · rename_i hcond
                        rw [if_pos hcond]
                        rw [Option.some.injEq, Prod.mk.injEq] at h
                        rw [← h.1, ← h.2]
                      · exact Option.noConfusion h
                  · rw [if_neg h5] at h ⊢
                    by_cases h6 : c = 'n'
                    · rw [if_pos h6] at h ⊢
                      match r0 with
                      | [] => exact Option.noConfusion h
                      | [_] => exact Option.noConfusion h
                      | [_, _] => exact Option.noConfusion h
                      | c1 :: c2 :: c3 :: r2 =>
                        simp only [List.cons_append] at h ⊢
                        split at h
                        · rename_i hcond
                          rw [if_pos hcond]
                          rw [Option.some.injEq, Prod.mk.injEq] at h
                          rw [← h.1, ← h.2]
                        · exact Option.noConfusion h
                    · rw [if_neg h6] at h ⊢
                      rcases hpn : parseNum (c :: r0) with _ | ⟨⟨mm, ee⟩, r1⟩ <;>
                        simp only [hpn] at h
                      · exact Option.noConfusion h
                      · rw [Option.some.injEq, Prod.mk.injEq] at h
                        obtain ⟨hv, hr⟩ := h
                        subst hv
                        subst hr
                        rcases hc with hc | hc
                        · subst hc
                          simp only [List.append_nil]
                          simp only [hpn]
                        · have hx := parseNum_ext ext hpn hc
                          simp only [List.cons_append] at hx
                          simp only [hx]
      | objCont acc =>
        cases l with
        | nil => simp [parseF] at h
        | cons c r0 =>
          rw [List.cons_append]
          simp only [parseF] at h ⊢
          by_cases h1 : c = '"'
          · rw [if_pos h1] at h ⊢
            rcases hps : parseStrAux (r0.length + 1) r0 [] with _ | ⟨kcs, r1⟩ <;>
              simp only [hps] at h
            · exact Option.noConfusion h
            · have hpsx : parseStrAux ((r0 ++ ext).length + 1) (r0 ++ ext) []
                  = some (kcs, r1 ++ ext) :=
                parseStrAux_le (by simp only [List.length_append]; omega)
                  (parseStrAux_ext hps)
              simp only [hpsx]
              rcases hsw1 : skipWs r1 with _ | ⟨d, r2⟩ <;> simp only [hsw1] at h
              · exact Option.noConfusion h
              · simp only [skipWs_append_cons hsw1]
                by_cases hd : d = ':'
                · rw [if_pos hd] at h ⊢
                  rcases hpv : parseF f PMode.top (skipWs r2) with _ | ⟨v0, r3⟩ <;>
                    simp only [hpv] at h
                  · exact Option.noConfusion h
                  · rcases hsw2 : skipWs r2 with _ | ⟨e1, t1⟩
                    · rw [hsw2, parseF_top_nil_any] at hpv
                      exact Option.noConfusion hpv
                    · rcases hsw3 : skipWs r3 with _ | ⟨d2, r4⟩ <;> simp only [hsw3] at h
                      · exact Option.noConfusion h
                      · rw [hsw2] at hpv
                        by_cases hc2 : d2 = ','
                        · rw [if_pos hc2] at h
                          have hst : stopTok r3 :=
                            stopTok_of_skipWs_cons hsw3 (by rw [hc2]; decide)
                          have hvx := ih hpv hfg' (extCond_of_stopTok hst)
                          rw [show skipWs (r2 ++ ext) = (e1 :: t1) ++ ext from by
                            rw [skipWs_append_cons hsw2]; rfl]
                          simp only [hvx, skipWs_append_cons hsw3]
                          rw [if_pos hc2]
                          rcases hsw4 : skipWs r4 with _ | ⟨e2, t2⟩
                          · rw [hsw4, parseF_objCont_nil_any] at h
                            exact Option.noConfusion h
                          · rw [hsw4] at h
                            have hx := ih h hfg' hc
                            rw [show skipWs (r4 ++ ext) = (e2 :: t2) ++ ext from by
                              rw [skipWs_append_cons hsw4]; rfl]
                            exact hx
                        · rw [if_neg hc2] at h
                          by_cases hb2 : d2 = '}'
                          · rw [if_pos hb2] at h
                            have hst : stopTok r3 :=
                              stopTok_of_skipWs_cons hsw3 (by rw [hb2]; decide)
                            have hvx := ih hpv hfg' (extCond_of_stopTok hst)
                            rw [show skipWs (r2 ++ ext) = (e1 :: t1) ++ ext from by
                              rw [skipWs_append_cons hsw2]; rfl]
                            simp only [hvx, skipWs_append_cons hsw3]
                            rw [if_neg hc2, if_pos hb2]
                            rw [Option.some.injEq, Prod.mk.injEq] at h
                            rw [← h.1, ← h.2]
                          · rw [if_neg hb2] at h
                            exact Option.noConfusion h
                · rw [if_neg hd] at h
                  exact Option.noConfusion h
          · rw [if_neg h1] at h
            exact Option.noConfusion h
      | arrCont acc =>
        simp only [parseF] at h ⊢
        rcases hpv : parseF f PMode.top l with _ | ⟨v0, r1⟩ <;> simp only [hpv] at h
        · exact Option.noConfusion h
        · rcases hsw1 : skipWs r1 with _ | ⟨d, r2⟩ <;> simp only [hsw1] at h
          · exact Option.noConfusion h
          · by_cases hd : d = ','
            · rw [if_pos hd] at h
              have hst : stopTok r1 :=
                stopTok_of_skipWs_cons hsw1 (by rw [hd]; decide)
              have hvx := ih hpv hfg' (extCond_of_stopTok hst)
              simp only [hvx, skipWs_append_cons hsw1]
              rw [if_pos hd]
              rcases hsw2 : skipWs r2 with _ | ⟨e2, t2⟩
              · rw [hsw2, parseF_arrCont_nil_any] at h
                exact Option.noConfusion h
              · rw [hsw2] at h
                have hx := ih h hfg' hc
                rw [show skipWs (r2 ++ ext) = (e2 :: t2) ++ ext from by
                  rw [skipWs_append_cons hsw2]; rfl]
                exact hx
            · rw [if_neg hd] at h
              by_cases he : d = ']'
              · rw [if_pos he] at h
                have hst : stopTok r1 :=
                  stopTok_of_skipWs_cons hsw1 (by rw [he]; decide)
                have hvx := ih hpv hfg' (extCond_of_stopTok hst)
                simp only [hvx, skipWs_append_cons hsw1]
                rw [if_neg hd, if_pos he]
                rw [Option.some.injEq, Prod.mk.injEq] at h
                rw [← h.1, ← h.2]
              · rw [if_neg he] at h
                exact Option.noConfusion h


/-! ## Fence-substitution lemmas -/

theorem replFJ_irrel : ∀ (n : Nat) (l : List Char) (f g : Nat), l.length ≤ n →
    l.length ≤ f → l.length ≤ g → replFJ f l = replFJ g l := by
  intro n
  induction n with
  | zero =>
    intro l f g hn _ _
    have : l = [] := List.length_eq_zero.1 (Nat.le_zero.1 hn)
    subst this
    cases f <;> cases g <;> rfl
  | succ n ih =>
    intro l f g hn hf hg
    cases l with
    | nil => cases f <;> cases g <;> rfl
    | cons c r =>
      simp only [List.length_cons] at hn hf hg
      cases f with
      | zero => omega
      | succ f' =>
        cases g with
        | zero => omega
        | succ g' =>
          simp only [replFJ]
          by_cases hm : List.take 7 (c :: r) = [backquote, backquote, backquote, 'j', 's', 'o', 'n']
          · rw [if_pos hm, if_pos hm]
            have hlen : ((c :: r).drop 7).length ≤ r.length := by
              simp only [List.length_drop, List.length_cons]
              omega
            have hlen2 : (((c :: r).drop 7).dropWhile isPyWs).length ≤ ((c :: r).drop 7).length :=
              List.Sublist.length_le (List.dropWhile_sublist _)
            exact ih _ f' g' (by omega) (by omega) (by omega)
          · rw [if_neg hm, if_neg hm]
            exact congrArg (c :: ·) (ih r f' g' (by omega) (by omega) (by omega))

theorem replFJ_canon {f : Nat} (l : List Char) (hf : l.length ≤ f) :
    replFJ f l = replFenceJson l :=
  replFJ_irrel f l f l.length hf hf (Nat.le_refl _)

theorem replFenceJson_no_tick {l : List Char} (h : ∀ c ∈ l, c ≠ backquote) :
    replFenceJson l = l := by
  induction l with
  | nil => rfl
  | cons c r ih =>
    have hc : c ≠ backquote := h c (List.mem_cons_self c r)
    have hm : List.take 7 (c :: r) ≠ [backquote, backquote, backquote, 'j', 's', 'o', 'n'] := by
      rw [List.take_succ_cons]
      intro heq
      rw [List.cons.injEq] at heq
      exact hc heq.1
    show replFJ (r.length + 1) (c :: r) = c :: r
    simp only [replFJ, if_neg hm]
    rw [show replFJ r.length r = replFenceJson r from rfl,
      ih (fun d hd => h d (List.mem_cons_of_mem c hd))]

theorem replFenceJson_append_no_tick {a : List Char} (b : List Char)
    (h : ∀ c ∈ a, c ≠ backquote) :
    replFenceJson (a ++ b) = a ++ replFenceJson b := by
  induction a with
  | nil => rfl
  | cons c a' ih =>
    have hc : c ≠ backquote := h c (List.mem_cons_self c a')
    have hm : List.take 7 (c :: (a' ++ b)) ≠ [backquote, backquote, backquote, 'j', 's', 'o', 'n'] := by
      rw [List.take_succ_cons]
      intro heq
      rw [List.cons.injEq] at heq
      exact hc heq.1
    show replFJ ((a' ++ b).length + 1) (c :: (a' ++ b)) = c :: (a' ++ replFenceJson b)
    simp only [replFJ, if_neg hm]
    rw [show replFJ (a' ++ b).length (a' ++ b) = replFenceJson (a' ++ b) from rfl,
      ih (fun d hd => h d (List.mem_cons_of_mem c hd))]

theorem replFenceJson_head_match (rest : List Char) :
    replFenceJson ([backquote, backquote, backquote, 'j', 's', 'o', 'n'] ++ rest)
      = replFenceJson (rest.dropWhile isPyWs) := by
  have hm : List.take 7 ([backquote, backquote, backquote, 'j', 's', 'o', 'n'] ++ rest)
      = [backquote, backquote, backquote, 'j', 's', 'o', 'n'] := List.take_left' rfl
  have hd : List.drop 7 ([backquote, backquote, backquote, 'j', 's', 'o', 'n'] ++ rest)
      = rest := List.drop_left' rfl
  show replFJ (([backquote, backquote, backquote, 'j', 's', 'o', 'n'] ++ rest).length)
      ([backquote, backquote, backquote, 'j', 's', 'o', 'n'] ++ rest) = _
  have hlen : ([backquote, backquote, backquote, 'j', 's', 'o', 'n'] ++ rest).length
      = rest.length + 6 + 1 := by simp [List.length_append]
  rw [hlen]
  show (if List.take 7 (backquote :: ([backquote, backquote, 'j', 's', 'o', 'n'] ++ rest))
          = [backquote, backquote, backquote, 'j', 's', 'o', 'n'] then
        replFJ (rest.length + 6)
          ((List.drop 7 (backquote :: ([backquote, backquote, 'j', 's', 'o', 'n'] ++ rest))).dropWhile isPyWs)
      else _) = _
  rw [show backquote :: ([backquote, backquote, 'j', 's', 'o', 'n'] ++ rest)
      = [backquote, backquote, backquote, 'j', 's', 'o', 'n'] ++ rest from rfl, hm, hd, if_pos rfl]
  exact replFJ_canon _ (le_trans (List.Sublist.length_le (List.dropWhile_sublist _)) (by omega))

theorem replF3_irrel : ∀ (n : Nat) (l : List Char) (f g : Nat), l.length ≤ n →
    l.length ≤ f → l.length ≤ g → replF3 f l = replF3 g l := by
  intro n
  induction n with
  | zero =>
    intro l f g hn _ _
    have : l = [] := List.length_eq_zero.1 (Nat.le_zero.1 hn)
    subst this
    cases f <;> cases g <;> rfl
  | succ n ih =>
    intro l f g hn hf hg
    cases l with
    | nil => cases f <;> cases g <;> rfl
    | cons c r =>
      simp only [List.length_cons] at hn hf hg
      cases f with
      | zero => omega
      | succ f' =>
        cases g with
        | zero => omega
        | succ g' =>
          simp only [replF3]
          by_cases hm : List.take 3 (c :: r) = [backquote, backquote, backquote]
          · rw [if_pos hm, if_pos hm]
            have hlen : ((c :: r).drop 3).length ≤ r.length := by
              simp only [List.length_drop, List.length_cons]
              omega
            have hlen2 : (((c :: r).drop 3).dropWhile isPyWs).length ≤ ((c :: r).drop 3).length :=
              List.Sublist.length_le (List.dropWhile_sublist _)
            exact ih _ f' g' (by omega) (by omega) (by omega)
          · rw [if_neg hm, if_neg hm]
            exact congrArg (c :: ·) (ih r f' g' (by omega) (by omega) (by omega))

theorem replF3_canon {f : Nat} (l : List Char) (hf : l.length ≤ f) :
    replF3 f l = replFence l :=
  replF3_irrel f l f l.length hf hf (Nat.le_refl _)

theorem replFence_no_tick {l : List Char} (h : ∀ c ∈ l, c ≠ backquote) :
    replFence l = l := by
  induction l with
  | nil => rfl
  | cons c r ih =>
    have hc : c ≠ backquote := h c (List.mem_cons_self c r)
    have hm : List.take 3 (c :: r) ≠ [backquote, backquote, backquote] := by
      rw [List.take_succ_cons]
      intro heq
      rw [List.cons.injEq] at heq
      exact hc heq.1
    show replF3 (r.length + 1) (c :: r) = c :: r
    simp only [replF3, if_neg hm]
    rw [show replF3 r.length r = replFence r from rfl,
      ih (fun d hd => h d (List.mem_cons_of_mem c hd))]

theorem replFence_append_no_tick {a : List Char} (b : List Char)
    (h : ∀ c ∈ a, c ≠ backquote) :
    replFence (a ++ b) = a ++ replFence b := by
  induction a with
  | nil => rfl
  | cons c a' ih =>
    have hc : c ≠ backquote := h c (List.mem_cons_self c a')
    have hm : List.take 3 (c :: (a' ++ b)) ≠ [backquote, backquote, backquote] := by
      rw [List.take_succ_cons]
      intro heq
      rw [List.cons.injEq] at heq
      exact hc heq.1
    show replF3 ((a' ++ b).length + 1) (c :: (a' ++ b)) = c :: (a' ++ replFence b)
    simp only [replF3, if_neg hm]
    rw [show replF3 (a' ++ b).length (a' ++ b) = replFence (a' ++ b) from rfl,
      ih (fun d hd => h d (List.mem_cons_of_mem c hd))]

/-! ## Strip lemmas -/

theorem pyStripL_append {pre rest : List Char} {c : Char} {t : List Char}
    (hrest : rest = c :: t) (hc : isPyWs c = false) :
    pyStripL (pre ++ rest) = pyStripL pre ++ rest := by
  subst hrest
  by_cases h : pre.dropWhile isPyWs = []
  · show (pre ++ c :: t).dropWhile isPyWs = pre.dropWhile isPyWs ++ c :: t
    rw [dropWhile_append_of_nil _ h, dropWhile_cons_of_false _ hc, h]
    rfl
  · show (pre ++ c :: t).dropWhile isPyWs = pre.dropWhile isPyWs ++ c :: t
    rw [dropWhile_append_of_ne_nil _ h]

theorem pyStripR_append {front post : List Char} {c : Char} {t0 : List Char}
    (hfront : front = t0 ++ [c]) (hc : isPyWs c = false) :
    pyStripR (front ++ post) = front ++ pyStripR post := by
  subst hfront
  show (((t0 ++ [c]) ++ post).reverse.dropWhile isPyWs).reverse
      = (t0 ++ [c]) ++ (post.reverse.dropWhile isPyWs).reverse
  rw [List.reverse_append]
  have hrev : (t0 ++ [c]).reverse = c :: t0.reverse := by simp
  rw [hrev]
  by_cases h : post.reverse.dropWhile isPyWs = []
  · rw [dropWhile_append_of_nil _ h, dropWhile_cons_of_false _ hc, h]
    simp
  · rw [dropWhile_append_of_ne_nil _ h]
    rw [List.reverse_append, List.reverse_cons, List.reverse_reverse]

theorem pyStrip_decomp {pre s post : List Char} {c d : Char} {t t0 : List Char}
    (hhead : s = c :: t) (hc : isPyWs c = false)
    (hlast : s = t0 ++ [d]) (hd : isPyWs d = false) :
    pyStrip (pre ++ s ++ post) = pyStripL pre ++ s ++ pyStripR post := by
  show pyStripR (pyStripL (pre ++ s ++ post)) = pyStripL pre ++ s ++ pyStripR post
  have h1 : pyStripL (pre ++ (s ++ post)) = pyStripL pre ++ (s ++ post) :=
    pyStripL_append (by rw [hhead]; rfl) hc
  have h2 : pyStripR ((pyStripL pre ++ s) ++ post) = (pyStripL pre ++ s) ++ pyStripR post :=
    pyStripR_append (by rw [hlast, List.append_assoc]) hd
  simp only [List.append_assoc] at h1 h2 ⊢
  rw [h1, h2]

theorem pyStripL_idem (l : List Char) : pyStripL (pyStripL l) = pyStripL l :=
  List.dropWhile_idempotent isPyWs l

theorem pyStripR_idem (l : List Char) : pyStripR (pyStripR l) = pyStripR l := by
  show ((((l.reverse.dropWhile isPyWs).reverse).reverse.dropWhile isPyWs)).reverse
      = (l.reverse.dropWhile isPyWs).reverse
  rw [List.reverse_reverse, List.dropWhile_idempotent isPyWs]

theorem pyStripL_subset {l : List Char} : ∀ c ∈ pyStripL l, c ∈ l := by
  intro c hc
  exact List.Sublist.mem hc (List.dropWhile_sublist _)

theorem pyStripR_subset {l : List Char} : ∀ c ∈ pyStripR l, c ∈ l := by
  intro c hc
  have : c ∈ l.reverse.dropWhile isPyWs := by
    rw [← List.mem_reverse]
    simpa [pyStripR] using hc
  have := List.Sublist.mem this (List.dropWhile_sublist _)
  simpa using this

theorem pyStripR_last {post : List Char} (hne : pyStripR post ≠ []) :
    ∃ X0 c, pyStripR post = X0 ++ [c] ∧ isPyWs c = false := by
  rcases hrv : post.reverse.dropWhile isPyWs with _ | ⟨c, Y⟩
  · exact absurd (by simp [pyStripR, hrv]) hne
  · refine ⟨Y.reverse, c, ?_, dropWhile_head_false hrv⟩
    show (post.reverse.dropWhile isPyWs).reverse = Y.reverse ++ [c]
    rw [hrv]
    simp

/-! ## Decoder-level lemmas for the recovery stages -/

theorem dropWhile_nil_of_all {p : Char → Bool} {l : List Char}
    (h : ∀ c ∈ l, p c = true) : l.dropWhile p = [] := by
  induction l with
  | nil => rfl
  | cons c t ih =>
    rw [List.dropWhile_cons, if_pos (h c (List.mem_cons_self c t))]
    exact ih (fun d hd => h d (List.mem_cons_of_mem c hd))

/-- A successful `json.loads` of a text that starts with `{` and ends with `}`
consumes the text exactly. -/
theorem loads_obj_exact {s : List Char} {kvs : List (String × Json)} {t t0 : List Char}
    (hok : pyJsonLoads s = Except.ok (Json.obj kvs))
    (hhead : s = '{' :: t) (hlast : s = t0 ++ ['}']) :
    parseF (s.length + 1) PMode.top s = some (Json.obj kvs, []) := by
  have hsw : skipWs s = s := by
    rw [hhead]
    exact dropWhile_cons_of_false _ (by decide)
  unfold pyJsonLoads at hok
  rw [hsw] at hok
  rcases hp : parseF (s.length + 1) PMode.top s with _ | ⟨v, rs⟩ <;> simp only [hp] at hok
  · exact Except.noConfusion hok
  · by_cases hrs : skipWs rs = []
    · rw [if_pos hrs] at hok
      have hv : v = Json.obj kvs := by
        injection hok
      subst hv
      rcases List.eq_nil_or_concat rs with hnil | ⟨rs0, c, hc⟩
      · rw [hnil]
      · rw [List.concat_eq_append] at hc
        have hcws : isJsonWs c = true := dropWhile_all_of_nil hrs c (by rw [hc]; simp)
        obtain ⟨a, ha⟩ := parseF_suffix hp
        rw [hc] at ha
        have h1 : t0 ++ ['}'] = (a ++ rs0) ++ [c] := by
          rw [← hlast, ha, List.append_assoc]
        have h2 := (List.append_inj' h1 rfl).2
        rw [List.cons.injEq] at h2
        rw [← h2.1] at hcws
        exact absurd hcws (by decide)
    · rw [if_neg hrs] at hok
      exact Except.noConfusion hok

/-- Decoding `s ++ post` when `s` alone decodes exactly as an object: the
result is the object when only whitespace follows, and an `Extra data` error
otherwise. -/
theorem loads_append_extra (post : List Char) {s : List Char} {kvs : List (String × Json)}
    {t : List Char}
    (hparse : parseF (s.length + 1) PMode.top s = some (Json.obj kvs, []))
    (hhead : s = '{' :: t) :
    pyJsonLoads (s ++ post)
      = if skipWs post = [] then Except.ok (Json.obj kvs) else Except.error "Extra data" := by
  have hswsp : skipWs (s ++ post) = s ++ post := by
    rw [hhead, List.cons_append]
    exact dropWhile_cons_of_false _ (by decide)
  have hfg : s.length + 1 ≤ (s ++ post).length + 1 := by
    simp only [List.length_append]
    omega
  have hx := parseF_ext post hparse hfg trivial
  rw [List.nil_append] at hx
  unfold pyJsonLoads
  rw [hswsp]
  simp only [hx]

theorem stage2Input_decomp {pre1 s post1 : List Char} {t : List Char}
    (hhead : s = '{' :: t) (hpre : ∀ c ∈ pre1, c ≠ '{' ∧ c ≠ '[') :
    stage2Input (pre1 ++ s ++ post1) = s ++ post1 := by
  have h1 : (pre1 ++ (s ++ post1)).dropWhile (fun c => !(c = '{' || c = '[')) = s ++ post1 := by
    rw [dropWhile_append_of_nil _ (dropWhile_nil_of_all ?hall)]
    case hall =>
      intro c hc
      obtain ⟨h1, h2⟩ := hpre c hc
      simp [h1, h2]
    rw [hhead, List.cons_append]
    exact dropWhile_cons_of_false _ (by decide)
  unfold stage2Input
  simp only [List.append_assoc] at h1 ⊢
  rw [h1, hhead, List.cons_append]

theorem braceSpan_decomp {pre1 s post1 : List Char} {t t0 : List Char}
    (hhead : s = '{' :: t) (hlast : s = t0 ++ ['}'])
    (hpre : ∀ c ∈ pre1, c ≠ '{') (hpost : ∀ c ∈ post1, c ≠ '}') :
    braceSpan (pre1 ++ s ++ post1) = some s := by
  have hfq : (fun c : Char => !(c = '{')) '{' = false := by decide
  have hfb : (fun c : Char => !(c = '}')) '}' = false := by decide
  have h1 : (pre1 ++ (s ++ post1)).dropWhile (fun c => !(c = '{')) = s ++ post1 := by
    rw [dropWhile_append_of_nil _ (dropWhile_nil_of_all (fun c hc => by simp [hpre c hc]))]
    rw [hhead, List.cons_append]
    exact dropWhile_cons_of_false _ hfq
  have h2 : ((s ++ post1).reverse).dropWhile (fun c => !(c = '}')) = s.reverse := by
    rw [List.reverse_append]
    rw [dropWhile_append_of_nil _ (dropWhile_nil_of_all (fun c hc => by
      rw [List.mem_reverse] at hc
      simp [hpost c hc]))]
    have hsr : s.reverse = '}' :: t0.reverse := by
      rw [hlast]
      simp
    rw [hsr]
    exact dropWhile_cons_of_false _ hfb
  unfold braceSpan
  simp only [List.append_assoc] at h1 ⊢
  rw [h1]
  rw [hhead, List.cons_append]
  simp only []
  have h2' : ('{' :: (t ++ post1)).reverse.dropWhile (fun c => !(c = '}')) = s.reverse := by
    rw [← List.cons_append, ← hhead]
    exact h2
  rw [h2', List.reverse_reverse]
  rw [hhead]

theorem cleanText_decomp {pre s post : List Char} {t t0 : List Char}
    (hhead : s = '{' :: t) (hlast : s = t0 ++ ['}'])
    (hsnt : ∀ c ∈ s, c ≠ backquote)
    (hpre : ∀ c ∈ pre, c ≠ backquote)
    (hpost : ∀ c ∈ post, c ≠ backquote) :
    cleanText (pre ++ s ++ post) = pyStripL pre ++ s ++ pyStripR post := by
  unfold cleanText
  have hstrip1 : pyStrip (pre ++ s ++ post) = pyStripL pre ++ s ++ pyStripR post :=
    pyStrip_decomp hhead (by decide) hlast (by decide)
  rw [hstrip1]
  have hnt : ∀ c ∈ pyStripL pre ++ s ++ pyStripR post, c ≠ backquote := by
    intro c hc
    simp only [List.append_assoc, List.mem_append] at hc
    rcases hc with hc | hc | hc
    · exact hpre c (pyStripL_subset c hc)
    · exact hsnt c hc
    · exact hpost c (pyStripR_subset c hc)
  rw [replFenceJson_no_tick hnt, replFence_no_tick hnt]
  have hstrip2 : pyStrip (pyStripL pre ++ s ++ pyStripR post)
      = pyStripL (pyStripL pre) ++ s ++ pyStripR (pyStripR post) :=
    pyStrip_decomp hhead (by decide) hlast (by decide)
  rw [hstrip2, pyStripL_idem, pyStripR_idem]

/-- Core recovery property of `parse_json`: a JSON object text surrounded by
prose is recovered whenever the leading prose opens no brace or bracket, the
trailing prose closes no brace, and no markdown backquotes appear. -/
theorem parse_recover {pre s post : List Char} {kvs : List (String × Json)} {t t0 : List Char}
    (hok : pyJsonLoads s = Except.ok (Json.obj kvs))
    (hhead : s = '{' :: t) (hlast : s = t0 ++ ['}'])
    (hsnt : ∀ c ∈ s, c ≠ backquote)
    (hpre : ∀ c ∈ pre, c ≠ '{' ∧ c ≠ '[' ∧ c ≠ backquote)
    (hpost : ∀ c ∈ post, c ≠ '}' ∧ c ≠ backquote) :
    parseJsonL (pre ++ s ++ post) = Except.ok (Json.obj kvs) := by
  have hparse := loads_obj_exact hok hhead hlast
  have hclean : cleanText (pre ++ s ++ post) = pyStripL pre ++ s ++ pyStripR post :=
    cleanText_decomp hhead hlast hsnt (fun c hc => (hpre c hc).2.2) (fun c hc => (hpost c hc).2)
  have hs2 : stage2Input (pyStripL pre ++ s ++ pyStripR post) = s ++ pyStripR post :=
    stage2Input_decomp hhead (fun c hc =>
      ⟨(hpre c (pyStripL_subset c hc)).1, (hpre c (pyStripL_subset c hc)).2.1⟩)
  have hld := loads_append_extra (pyStripR post) hparse hhead
  unfold parseJsonL
  rw [hclean, hs2]
  by_cases hpe : skipWs (pyStripR post) = []
  · rw [if_pos hpe] at hld
    simp only [hld]
  · rw [if_neg hpe] at hld
    simp only [hld]
    have hspan : braceSpan (pyStripL pre ++ s ++ pyStripR post) = some s :=
      braceSpan_decomp hhead hlast (fun c hc => (hpre c (pyStripL_subset c hc)).1)
        (fun c hc => (hpost c (pyStripR_subset c hc)).1)
    simp only [hspan]
    exact hok

theorem pyStrip_id {l : List Char} {c d : Char} {t t0 : List Char}
    (hhead : l = c :: t) (hc : isPyWs c = false)
    (hlast : l = t0 ++ [d]) (hd : isPyWs d = false) : pyStrip l = l := by
  have h1 : pyStripL l = l := by
    rw [hhead]
    exact dropWhile_cons_of_false _ hc
  show pyStripR (pyStripL l) = l
  rw [h1]
  show (l.reverse.dropWhile isPyWs).reverse = l
  have hrev : l.reverse = d :: t0.reverse := by
    rw [hlast]
    simp
  rw [hrev, dropWhile_cons_of_false _ hd, ← hrev, List.reverse_reverse]

theorem stage2Input_self {s : List Char} {t : List Char} (hhead : s = '{' :: t) :
    stage2Input s = s := by
  unfold stage2Input
  rw [hhead, dropWhile_cons_of_false _ (by decide)]

theorem braceSpan_full {l : List Char} {t t0 : List Char}
    (hhead : l = '{' :: t) (hlast : l = t0 ++ ['}']) : braceSpan l = some l := by
  unfold braceSpan
  rw [hhead, dropWhile_cons_of_false _ (by decide)]
  simp only []
  have hrev : ('{' :: t).reverse = '}' :: t0.reverse := by
    rw [← hhead, hlast]
    simp
  rw [hrev, dropWhile_cons_of_false _ (by decide), ← hrev, List.reverse_reverse]

/-- Recovery of a fenced JSON object: the exact markdown wrapping
` ```json\n … \n``` ` is removed by the two substitutions and the object is
decoded by stage 2. -/
theorem parse_recover_fenced {s : List Char} {kvs : List (String × Json)} {t t0 : List Char}
    (hok : pyJsonLoads s = Except.ok (Json.obj kvs))
    (hhead : s = '{' :: t) (hlast : s = t0 ++ ['}'])
    (hsnt : ∀ c ∈ s, c ≠ backquote) :
    parseJsonL ([backquote, backquote, backquote, 'j', 's', 'o', 'n', '\n'] ++ s
      ++ ['\n', backquote, backquote, backquote]) = Except.ok (Json.obj kvs) := by
  have hstrip1 : pyStrip ([backquote, backquote, backquote, 'j', 's', 'o', 'n', '\n'] ++ s
      ++ ['\n', backquote, backquote, backquote])
      = [backquote, backquote, backquote, 'j', 's', 'o', 'n', '\n'] ++ s
        ++ ['\n', backquote, backquote, backquote] := by
    have hl : [backquote, backquote, backquote, 'j', 's', 'o', 'n', '\n'] ++ s
        ++ ['\n', backquote, backquote, backquote]
        = ([backquote, backquote, backquote, 'j', 's', 'o', 'n', '\n'] ++ s
          ++ ['\n', backquote, backquote]) ++ [backquote] := by simp
    exact pyStrip_id rfl (by decide) hl (by decide)
  have hfj : replFenceJson ([backquote, backquote, backquote, 'j', 's', 'o', 'n', '\n'] ++ s
      ++ ['\n', backquote, backquote, backquote])
      = s ++ ['\n', backquote, backquote, backquote] := by
    rw [List.append_assoc]
    rw [show [backquote, backquote, backquote, 'j', 's', 'o', 'n', '\n']
        = [backquote, backquote, backquote, 'j', 's', 'o', 'n'] ++ ['\n'] from rfl]
    rw [List.append_assoc, replFenceJson_head_match]
    rw [show (['\n'] ++ (s ++ ['\n', backquote, backquote, backquote])).dropWhile isPyWs
        = s ++ ['\n', backquote, backquote, backquote] from by
      rw [dropWhile_append_of_nil _ (by decide), hhead, List.cons_append]
      exact dropWhile_cons_of_false _ (by decide)]
    rw [replFenceJson_append_no_tick _ hsnt]
    rfl
  have hf3 : replFence (s ++ ['\n', backquote, backquote, backquote]) = s ++ ['\n'] := by
    rw [replFence_append_no_tick _ hsnt]
    rfl
  have hstrip2 : pyStrip (s ++ ['\n']) = s := by
    show pyStripR (pyStripL (s ++ ['\n'])) = s
    have h1 : pyStripL (s ++ ['\n']) = s ++ ['\n'] := by
      rw [hhead, List.cons_append]
      exact dropWhile_cons_of_false _ (by decide)
    rw [h1]
    show ((s ++ ['\n']).reverse.dropWhile isPyWs).reverse = s
    rw [List.reverse_append]
    rw [dropWhile_append_of_nil _ (by decide)]
    have hrev : s.reverse = '}' :: t0.reverse := by
      rw [hlast]
      simp
    rw [hrev, dropWhile_cons_of_false _ (by decide), ← hrev, List.reverse_reverse]
  have hclean : cleanText ([backquote, backquote, backquote, 'j', 's', 'o', 'n', '\n'] ++ s
      ++ ['\n', backquote, backquote, backquote]) = s := by
    unfold cleanText
    rw [hstrip1, hfj, hf3, hstrip2]
  unfold parseJsonL
  rw [hclean, stage2Input_self hhead]
  simp only [hok]

theorem jsonWs_is_pyWs {c : Char} (h : isJsonWs c = true) : isPyWs c = true := by
  simp only [isJsonWs, Bool.or_eq_true, decide_eq_true_eq] at h
  rcases h with ((h | h) | h) | h <;> subst h <;> decide

/-- Two balanced top-level objects separated by whitespace: stage 2 fails with
`Extra data`, the stage-3 greedy span is the whole text, and its decode fails
with the same error, which propagates. -/
theorem parse_two_objects {s1 sep s2 : List Char} {kvs : List (String × Json)}
    {t1 t10 t20 : List Char}
    (hok1 : pyJsonLoads s1 = Except.ok (Json.obj kvs))
    (hhead1 : s1 = '{' :: t1) (hlast1 : s1 = t10 ++ ['}'])
    (hsep : ∀ c ∈ sep, isJsonWs c = true)
    (hlast2 : s2 = t20 ++ ['}'])
    (hs1nt : ∀ c ∈ s1, c ≠ backquote) (hs2nt : ∀ c ∈ s2, c ≠ backquote) :
    parseJsonL (s1 ++ sep ++ s2) = Except.error "Extra data" := by
  have hparse := loads_obj_exact hok1 hhead1 hlast1
  have hwhead : s1 ++ sep ++ s2 = '{' :: (t1 ++ sep ++ s2) := by
    rw [hhead1]
    simp
  have hwlast : s1 ++ sep ++ s2 = (s1 ++ sep ++ t20) ++ ['}'] := by
    rw [hlast2]
    simp
  have hticks : ∀ c ∈ s1 ++ sep ++ s2, c ≠ backquote := by
    intro c hc
    simp only [List.append_assoc, List.mem_append] at hc
    rcases hc with hc | hc | hc
    · exact hs1nt c hc
    · intro hbq
      subst hbq
      have := jsonWs_is_pyWs (hsep backquote hc)
      exact absurd this (by decide)
    · exact hs2nt c hc
  have hstrip : pyStrip (s1 ++ sep ++ s2) = s1 ++ sep ++ s2 :=
    pyStrip_id hwhead (by decide) hwlast (by decide)
  have hclean : cleanText (s1 ++ sep ++ s2) = s1 ++ sep ++ s2 := by
    unfold cleanText
    rw [hstrip, replFenceJson_no_tick hticks, replFence_no_tick hticks, hstrip]
  have hs2i : stage2Input (s1 ++ sep ++ s2) = s1 ++ sep ++ s2 := stage2Input_self hwhead
  have hmem : '}' ∈ sep ++ s2 := by
    rw [hlast2]
    simp
  have hsw : skipWs (sep ++ s2) ≠ [] :=
    dropWhile_ne_nil_of_mem hmem (by decide)
  have hld := loads_append_extra (sep ++ s2) hparse hhead1
  rw [if_neg hsw] at hld
  have hspan : braceSpan (s1 ++ sep ++ s2) = some (s1 ++ sep ++ s2) :=
    braceSpan_full hwhead hwlast
  unfold parseJsonL
  rw [hclean, hs2i]
  rw [List.append_assoc]
  simp only [hld]
  rw [← List.append_assoc]
  simp only [hspan]
  rw [List.append_assoc]
  exact hld

/-! ## Character-subset lemmas and the remaining stage characterisations -/

theorem replFJ_subset : ∀ (f : Nat) (l : List Char), ∀ c ∈ replFJ f l, c ∈ l := by
  intro f
  induction f with
  | zero =>
    intro l c hc
    cases l with
    | nil => cases hc
    | cons d r => exact hc
  | succ f ih =>
    intro l c hc
    cases l with
    | nil => cases hc
    | cons d r =>
      simp only [replFJ] at hc
      by_cases hm : List.take 7 (d :: r) = [backquote, backquote, backquote, 'j', 's', 'o', 'n']
      · rw [if_pos hm] at hc
        have h1 := ih _ c hc
        have h2 : c ∈ (d :: r).drop 7 := List.Sublist.mem h1 (List.dropWhile_sublist _)
        exact List.Sublist.mem h2 (List.drop_sublist _ _)
      · rw [if_neg hm] at hc
        rcases List.mem_cons.1 hc with rfl | hc
        · exact List.mem_cons_self _ _
        · exact List.mem_cons_of_mem _ (ih _ c hc)

theorem replF3_subset : ∀ (f : Nat) (l : List Char), ∀ c ∈ replF3 f l, c ∈ l := by
  intro f
  induction f with
  | zero =>
    intro l c hc
    cases l with
    | nil => cases hc
    | cons d r => exact hc
  | succ f ih =>
    intro l c hc
    cases l with
    | nil => cases hc
    | cons d r =>
      simp only [replF3] at hc
      by_cases hm : List.take 3 (d :: r) = [backquote, backquote, backquote]
      · rw [if_pos hm] at hc
        have h1 := ih _ c hc
        have h2 : c ∈ (d :: r).drop 3 := List.Sublist.mem h1 (List.dropWhile_sublist _)
        exact List.Sublist.mem h2 (List.drop_sublist _ _)
      · rw [if_neg hm] at hc
        rcases List.mem_cons.1 hc with rfl | hc
        · exact List.mem_cons_self _ _
        · exact List.mem_cons_of_mem _ (ih _ c hc)

theorem cleanText_subset {l : List Char} : ∀ c ∈ cleanText l, c ∈ l := by
  intro c hc
  unfold cleanText at hc
  have h1 : c ∈ replFence (replFenceJson (pyStrip l)) := by
    have := pyStripL_subset c (by
      have : c ∈ pyStripR (pyStripL (replFence (replFenceJson (pyStrip l)))) := hc
      exact pyStripR_subset c this)
    exact this
  have h2 : c ∈ replFenceJson (pyStrip l) := replF3_subset _ _ c h1
  have h3 : c ∈ pyStrip l := replFJ_subset _ _ c h2
  exact pyStripL_subset c (pyStripR_subset c h3)

/-- On brace-free, bracket-free input, `parse_json` never raises: it returns
either the empty-object sentinel or the decode of the whole cleaned text. -/
theorem parse_no_brace {l : List Char} (h : ∀ c ∈ l, c ≠ '{' ∧ c ≠ '[') :
    parseJsonL l = Except.ok (Json.obj [])
      ∨ ∃ v, parseJsonL l = Except.ok v ∧ pyJsonLoads (cleanText l) = Except.ok v := by
  have hcl : ∀ c ∈ cleanText l, c ≠ '{' ∧ c ≠ '[' := fun c hc => h c (cleanText_subset c hc)
  have hs2 : stage2Input (cleanText l) = cleanText l := by
    unfold stage2Input
    rw [dropWhile_nil_of_all (fun c hc => by simp [(hcl c hc).1, (hcl c hc).2])]
  unfold parseJsonL
  rw [hs2]
  rcases hld : pyJsonLoads (cleanText l) with e | v
  · simp only []
    have hbs : braceSpan (cleanText l) = none := by
      unfold braceSpan
      rw [dropWhile_nil_of_all (fun c hc => by simp [(hcl c hc).1])]
    simp only [hbs]
    exact Or.inl trivial
  · simp only []
    exact Or.inr ⟨v, rfl, rfl⟩

/-- The only way `parse_json` can raise is the uncaught stage-3 decode: every
error it returns is the error of decoding the greedy brace span. -/
theorem parse_error_source {l : List Char} {e : String} (h : parseJsonL l = Except.error e) :
    ∃ span, braceSpan (cleanText l) = some span ∧ pyJsonLoads span = Except.error e := by
  unfold parseJsonL at h
  rcases h2 : pyJsonLoads (stage2Input (cleanText l)) with e2 | v2 <;> simp only [h2] at h
  · rcases h3 : braceSpan (cleanText l) with _ | span <;> simp only [h3] at h
    · exact Except.noConfusion h
    · exact ⟨span, rfl, h⟩
  · exact Except.noConfusion h

theorem parseStrAux_plain {x : List Char} :
    ∀ {f : Nat} {rest acc : List Char},
    (∀ c ∈ x, c ≠ '"' ∧ c ≠ '\\' ∧ 32 ≤ c.toNat) → x.length + 1 ≤ f →
    parseStrAux f (x ++ '"' :: rest) acc = some (acc.reverse ++ x, rest) := by
  induction x with
  | nil =>
    intro f rest acc _ hf
    cases f with
    | zero => omega
    | succ f =>
      rw [List.nil_append, parseStrAux_cons, if_pos rfl, List.append_nil]
  | cons c x' ih =>
    intro f rest acc hx hf
    cases f with
    | zero => simp at hf
    | succ f =>
      obtain ⟨h1, h2, h3⟩ := hx c (List.mem_cons_self c x')
      rw [List.cons_append, parseStrAux_cons, if_neg h1, if_neg h2,
        if_neg (by omega : ¬c.toNat < 32)]
      rw [ih (fun d hd => hx d (List.mem_cons_of_mem c hd)) (by
        simp only [List.length_cons] at hf
        omega)]
      simp

theorem parseF_top_obj (f : Nat) (r : List Char) :
    parseF (f + 1) PMode.top ('{' :: r)
      = (match skipWs r with
         | [] => none
         | d :: r2 =>
           if d = '}' then some (Json.obj [], r2)
           else parseF f (PMode.objCont []) (d :: r2)) := rfl

theorem parseF_top_str (f : Nat) (r : List Char) :
    parseF (f + 1) PMode.top ('"' :: r)
      = (match parseStrAux (r.length + 1) r [] with
         | some (cs, r1) => some (Json.str (String.mk cs), r1)
         | none => none) := rfl

theorem parseF_objCont_str (f : Nat) (acc : List (String × Json)) (r : List Char) :
    parseF (f + 1) (PMode.objCont acc) ('"' :: r)
      = (match parseStrAux (r.length + 1) r [] with
         | some (kcs, r1) =>
           (match skipWs r1 with
            | [] => none
            | d :: r2 =>
              if d = ':' then
                match parseF f PMode.top (skipWs r2) with
                | some (v, r3) =>
                  (match skipWs r3 with
                   | [] => none
                   | d2 :: r4 =>
                     if d2 = ',' then
                       parseF f (PMode.objCont (objInsert acc (String.mk kcs) v)) (skipWs r4)
                     else if d2 = '}' then
                       some (Json.obj (objInsert acc (String.mk kcs) v), r4)
                     else none)
                | none => none
              else none)
         | none => none) := rfl

/-- The family of inputs of C7: an object whose single string value consists
of arbitrary plain characters, including literal braces. -/
theorem parseF_braced_string {x : List Char}
    (hx : ∀ c ∈ x, c ≠ '"' ∧ c ≠ '\\' ∧ 32 ≤ c.toNat) :
    ∀ f, 2 ≤ f →
    parseF (f + 1) PMode.top ('{' :: '"' :: 'a' :: '"' :: ':' :: '"' :: (x ++ ['"', '}']))
      = some (Json.obj [("a", Json.str (String.mk x))], []) := by
  intro f hf
  rcases f with _ | f1
  · omega
  rcases f1 with _ | f2
  · omega
  rw [parseF_top_obj]
  have hsw1 : skipWs ('"' :: 'a' :: '"' :: ':' :: '"' :: (x ++ ['"', '}']))
      = '"' :: ('a' :: '"' :: ':' :: '"' :: (x ++ ['"', '}'])) :=
    dropWhile_cons_of_false _ (by decide)
  simp only [hsw1, if_neg (show ¬('"' : Char) = '}' by decide)]
  rw [parseF_objCont_str]
  have hkey : parseStrAux (('a' :: '"' :: ':' :: '"' :: (x ++ ['"', '}'])).length + 1)
      ('a' :: '"' :: ':' :: '"' :: (x ++ ['"', '}'])) []
      = some (['a'], ':' :: '"' :: (x ++ ['"', '}'])) := by
    rw [show ('a' :: '"' :: ':' :: '"' :: (x ++ ['"', '}']))
        = ['a'] ++ '"' :: (':' :: '"' :: (x ++ ['"', '}'])) from rfl]
    exact parseStrAux_plain (by decide) (by simp [List.length_append])
  simp only [hkey]
  have hsw2 : skipWs (':' :: '"' :: (x ++ ['"', '}'])) = ':' :: ('"' :: (x ++ ['"', '}'])) :=
    dropWhile_cons_of_false _ (by decide)
  simp only [hsw2, if_pos (show (':' : Char) = ':' from rfl)]
  have hsw3 : skipWs ('"' :: (x ++ ['"', '}'])) = '"' :: (x ++ ['"', '}']) :=
    dropWhile_cons_of_false _ (by decide)
  rw [hsw3, parseF_top_str]
  have hval : parseStrAux ((x ++ ['"', '}']).length + 1) (x ++ ['"', '}']) []
      = some (x, ['}']) := by
    rw [show (x ++ ['"', '}'] : List Char) = x ++ '"' :: ['}'] from rfl]
    exact parseStrAux_plain hx (by simp [List.length_append])
  simp only [hval]
  have hsw4 : skipWs ['}'] = ['}'] := dropWhile_cons_of_false _ (by decide)
  simp only [hsw4, if_neg (show ¬('}' : Char) = ',' by decide),
    if_pos (show ('}' : Char) = '}' from rfl)]
  rfl

theorem parse_braced_string {x : List Char}
    (hx : ∀ c ∈ x, c ≠ '"' ∧ c ≠ '\\' ∧ 32 ≤ c.toNat ∧ c ≠ backquote) :
    parseJsonL ('{' :: '"' :: 'a' :: '"' :: ':' :: '"' :: (x ++ ['"', '}']))
      = Except.ok (Json.obj [("a", Json.str (String.mk x))]) := by
  have hx3 : ∀ c ∈ x, c ≠ '"' ∧ c ≠ '\\' ∧ 32 ≤ c.toNat :=
    fun c hc => ⟨(hx c hc).1, (hx c hc).2.1, (hx c hc).2.2.1⟩
  have hhead : ('{' :: '"' :: 'a' :: '"' :: ':' :: '"' :: (x ++ ['"', '}']))
      = '{' :: ('"' :: 'a' :: '"' :: ':' :: '"' :: (x ++ ['"', '}'])) := rfl
  have hlast : ('{' :: '"' :: 'a' :: '"' :: ':' :: '"' :: (x ++ ['"', '}']))
      = ('{' :: '"' :: 'a' :: '"' :: ':' :: '"' :: (x ++ ['"'])) ++ ['}'] := by
    simp only [List.cons_append, List.nil_append, List.append_assoc]
  have hticks : ∀ c ∈ ('{' :: '"' :: 'a' :: '"' :: ':' :: '"' :: (x ++ ['"', '}'])),
      c ≠ backquote := by
    intro c hc hbq
    subst hbq
    simp only [List.mem_cons, List.mem_append] at hc
    rcases hc with h | h | h | h | h | h | h | h <;>
      first
        | exact absurd h (by decide)
        | exact absurd rfl ((hx _ h).2.2.2)
  have hlen : ('{' :: '"' :: 'a' :: '"' :: ':' :: '"' :: (x ++ ['"', '}'])).length
      = x.length + 8 := by
    simp [List.length_append]
  have hloads : pyJsonLoads ('{' :: '"' :: 'a' :: '"' :: ':' :: '"' :: (x ++ ['"', '}']))
      = Except.ok (Json.obj [("a", Json.str (String.mk x))]) := by
    unfold pyJsonLoads
    rw [show skipWs ('{' :: '"' :: 'a' :: '"' :: ':' :: '"' :: (x ++ ['"', '}']))
        = '{' :: '"' :: 'a' :: '"' :: ':' :: '"' :: (x ++ ['"', '}']) from
      dropWhile_cons_of_false _ (by decide)]
    rw [hlen]
    rw [parseF_braced_string hx3 (x.length + 8) (by omega)]
    rfl
  have hstrip := pyStrip_id hhead (by decide) hlast (by decide)
  have hclean : cleanText ('{' :: '"' :: 'a' :: '"' :: ':' :: '"' :: (x ++ ['"', '}']))
      = '{' :: '"' :: 'a' :: '"' :: ':' :: '"' :: (x ++ ['"', '}']) := by
    unfold cleanText
    rw [hstrip, replFenceJson_no_tick hticks, replFence_no_tick hticks, hstrip]
  unfold parseJsonL
  rw [hclean, stage2Input_self hhead]
  simp only [hloads]

/- ──────────────────── Orchestrator: json.dumps, str(), dict.get ─────────── -/

/-- One hex digit, lowercase, as produced by Python json escapes. -/
def hexDigitChar (n : Nat) : Char :=
  if n < 10 then Char.ofNat (48 + n) else Char.ofNat (87 + n)

def hex4 (n : Nat) : String :=
  String.mk [hexDigitChar (n / 4096 % 16), hexDigitChar (n / 256 % 16),
    hexDigitChar (n / 16 % 16), hexDigitChar (n % 16)]

/-- Escaping of one character in a JSON string per Python `json.dumps`
(default `ensure_ascii=True`): the two mandatory escapes, the short control
escapes, `\uXXXX` for other control and all non-ASCII characters. -/
def escapeJsonChar (c : Char) : String :=
  if c = '"' then "\\\""
  else if c = '\\' then "\\\\"
  else if c = '\n' then "\\n"
  else if c = '\r' then "\\r"
  else if c = '\t' then "\\t"
  else if c.toNat = 8 then "\\b"
  else if c.toNat = 12 then "\\f"
  else if c.toNat < 32 ∨ 127 ≤ c.toNat then "\\u" ++ hex4 (c.toNat % 65536)
  else String.mk [c]

def jsonQuote (s : String) : String :=
  "\"" ++ String.join (s.data.map escapeJsonChar) ++ "\""

/-- Rendering of a `Json.num m e` value. Integers (`e = 0`) render as Python
renders `int`; for non-integers we keep the exact mantissa/exponent form
(Python float `repr` is a display approximation of the same value). -/
def numToString (m e : Int) : String :=
  if e = 0 then toString m else toString m ++ "e" ++ toString e

mutual
/-- Executable structural height of a value, used as fuel for the value
serializers below. -/
def jsonFuel : Json → Nat
  | Json.null => 1
  | Json.bool _ => 1
  | Json.num _ _ => 1
  | Json.str _ => 1
  | Json.arr xs => 1 + jsonFuelArr xs
  | Json.obj kvs => 1 + jsonFuelObj kvs
def jsonFuelArr : List Json → Nat
  | [] => 0
  | v :: vs => max (jsonFuel v) (jsonFuelArr vs)
def jsonFuelObj : List (String × Json) → Nat
  | [] => 0
  | kv :: kvs => max (jsonFuel kv.2) (jsonFuelObj kvs)
end

/-- Python `json.dumps` with default separators `", "` and `": "`, fuelled by
the structural size of the value so every case is a plain structural step. -/
def jsonDumpsF : Nat → Json → String
  | 0, _ => ""
  | Nat.succ _, Json.null => "null"
  | Nat.succ _, Json.bool true => "true"
  | Nat.succ _, Json.bool false => "false"
  | Nat.succ _, Json.num m e => numToString m e
  | Nat.succ _, Json.str s => jsonQuote s
  | Nat.succ f, Json.arr xs =>
      "[" ++ String.intercalate ", " (xs.map (jsonDumpsF f)) ++ "]"
  | Nat.succ f, Json.obj kvs =>
      "\x7b" ++ String.intercalate ", "
        (kvs.map (fun kv => jsonQuote kv.1 ++ ": " ++ jsonDumpsF f kv.2)) ++ "\x7d"

def jsonDumps (v : Json) : String := jsonDumpsF (jsonFuel v) v

def squoteS : String := String.mk [Char.ofNat 39]

/-- Python `repr` of a decoded JSON value (used by `str()` on non-strings):
`None`/`True`/`False`, numbers, single-quoted strings, lists, dicts. -/
def pyReprF : Nat → Json → String
  | 0, _ => ""
  | Nat.succ _, Json.null => "None"
  | Nat.succ _, Json.bool true => "True"
  | Nat.succ _, Json.bool false => "False"
  | Nat.succ _, Json.num m e => numToString m e
  | Nat.succ _, Json.str s => squoteS ++ s ++ squoteS
  | Nat.succ f, Json.arr xs =>
      "[" ++ String.intercalate ", " (xs.map (pyReprF f)) ++ "]"
  | Nat.succ f, Json.obj kvs =>
      "\x7b" ++ String.intercalate ", "
        (kvs.map (fun kv => squoteS ++ kv.1 ++ squoteS ++ ": " ++ pyReprF f kv.2)) ++ "\x7d"

/-- Python `str()` as used by f-string interpolation: strings verbatim,
anything else via `repr`-style rendering. -/
def pyStr (v : Json) : String :=
  match v with
  | Json.str s => s
  | _ => pyReprF (jsonFuel v) v

/-- Python `dict.get(k, d)` on the association list of a decoded object
(keys are unique: `objInsert` replaces on duplicate). -/
def dictGet (kvs : List (String × Json)) (k : String) (d : Json) : Json :=
  match kvs with
  | [] => d
  | kv :: rest => if kv.1 == k then kv.2 else dictGet rest k d

/-- The key `k` occurs in the association list. -/
def hasKey (kvs : List (String × Json)) (k : String) : Prop :=
  ∃ p ∈ kvs, p.1 = k

/-- The second (plan-generation) prompt of the `/api/plan` endpoint: the
f-string of `src/main.py` lines 93–95, with `intent.get` defaults `3`,
`15000` and `"destination"`. -/
def plan_prompt (message : String) (intent : List (String × Json)) : String :=
  "User: \"" ++ message ++ "\"\nIntent: " ++ jsonDumps (Json.obj intent)
    ++ "\nGenerate ALL " ++ pyStr (dictGet intent "duration_days" (Json.num 3 0))
    ++ " days. Budget: " ++ pyStr (dictGet intent "total_budget" (Json.num 15000 0))
    ++ " INR. Destination: " ++ pyStr (dictGet intent "destination" (Json.str "destination"))
    ++ ". Use real attraction names."

structure HttpError where
  status : Nat
  detail : String

/-- The `/api/plan` endpoint. `env` is the process environment, `llm i p`
the text returned by the `i`-th outbound `client.messages.create` call when
sent user content `p`; the second component counts outbound calls issued.
A `parse_json` exception, and the `AttributeError` raised by `.get` when the
recovered intent is not a dict, surface as 500 responses after the calls
already made. -/
def plan (env : String → Option String) (llm : Nat → String → String)
    (message : String) : Except HttpError (Json × Json) × Nat :=
  if (env "ANTHROPIC_API_KEY").getD "" = "" then
    (Except.error ⟨500, "ANTHROPIC_API_KEY environment variable not set"⟩, 0)
  else
    match parse_json (llm 0 message) with
    | Except.error e => (Except.error ⟨500, e⟩, 1)
    | Except.ok (Json.obj kvs) =>
        match parse_json (llm 1 (plan_prompt message kvs)) with
        | Except.error e => (Except.error ⟨500, e⟩, 2)
        | Except.ok planData => (Except.ok (Json.obj kvs, planData), 2)
    | Except.ok _ => (Except.error ⟨500, "AttributeError"⟩, 1)

/- ─────────────────────────── Routing: catch-all ─────────────────────────── -/

inductive GetResponse where
  | healthOk : GetResponse
  | staticDoc : GetResponse
  | notFound : GetResponse

/-- Python `str.startswith`: the second list is a prefix of the first. -/
def startsWithL : List Char → List Char → Bool
  | _, [] => true
  | [], _ :: _ => false
  | c :: s, d :: p => c == d && startsWithL s p

/-- The catch-all route of `src/main.py` lines 567–573: 404 for unmatched
`api/` paths, the embedded HTML document otherwise. -/
def serve (path : String) : GetResponse :=
  if startsWithL path.data "api/".data then GetResponse.notFound
  else GetResponse.staticDoc

/-- Dispatch of a GET request over the registered routes, in registration
order: the exact route `/api/health`, then the catch-all (the POST-only
`/api/plan` route never matches a GET). -/
def handleGet (path : String) : GetResponse :=
  if path = "api/health" then GetResponse.healthOk else serve path

/-- The needle occurs as a contiguous substring of the haystack. -/
def strContains (hay needle : String) : Prop :=
  ∃ a b : List Char, hay.data = a ++ needle.data ++ b

example : pyStr (Json.num 3 0) = "3" := rfl
example : pyStr (Json.num 15000 0) = "15000" := rfl
example : pyStr (Json.str "Goa") = "Goa" := rfl
example : jsonDumps (Json.obj [("a", Json.num 1 0)]) = "\x7b\"a\": 1\x7d" := rfl
example : dictGet [("x", Json.null)] "duration_days" (Json.num 3 0) = Json.num 3 0 := rfl
example :
    plan_prompt "hi" []
      = "User: \"hi\"\nIntent: \x7b\x7d\nGenerate ALL 3 days. Budget: 15000 INR. " ++
        "Destination: destination. Use real attraction names." := rfl
example : plan (fun _ => none) (fun _ _ => "") "hi"
    = (Except.error ⟨500, "ANTHROPIC_API_KEY environment variable not set"⟩, 0) := rfl
example : plan (fun _ => some "k") (fun _ _ => "\x7b\x7d") "hi"
    = (Except.ok (Json.obj [], Json.obj []), 2) := rfl
example : plan (fun _ => some "k") (fun _ _ => "42") "hi"
    = (Except.error ⟨500, "AttributeError"⟩, 1) := rfl
example : handleGet "api/health" = GetResponse.healthOk := rfl
example : handleGet "" = GetResponse.staticDoc := rfl
example : handleGet "about" = GetResponse.staticDoc := rfl
example : handleGet "api/unknown-route" = GetResponse.notFound := rfl

/- ─────────────────────────────── Claims ─────────────────────────────────── -/

theorem dictGet_not_has {kvs : List (String × Json)} {k : String} {d : Json}
    (h : ¬ hasKey kvs k) : dictGet kvs k d = d := by
  induction kvs with
  | nil => rfl
  | cons kv rest ih =>
    have hne : (kv.1 == k) = false :=
      beq_eq_false_iff_ne.mpr (fun he => h ⟨kv, List.mem_cons_self _ _, he⟩)
    show (if kv.1 == k then kv.2 else dictGet rest k d) = d
    rw [hne]
    exact ih (fun hh => by
      obtain ⟨p, hp, he⟩ := hh
      exact h ⟨p, List.mem_cons_of_mem _ hp, he⟩)

/-- C1 (corrected). The claim that `parse_json` never propagates a parse
exception is false: the stage-3 decode `json.loads(m.group())` sits outside
the `try`, so its exception escapes. Amended property proved here: every
exception `parse_json` lets escape is exactly the failure of decoding the
greedy stage-3 brace span — on every path where that span is absent or
decodes, the function returns normally. -/
theorem c1_error_only_from_stage3 (t : String) (e : String)
    (h : parse_json t = Except.error e) :
    ∃ span, braceSpan (cleanText t.data) = some span
      ∧ pyJsonLoads span = Except.error e :=
  parse_error_source h

theorem c1_witness :
    ∃ span, braceSpan (cleanText ("\x7bx\x7d" : String).data) = some span
      ∧ pyJsonLoads span = Except.error "Expecting value" :=
  c1_error_only_from_stage3 "\x7bx\x7d" "Expecting value" rfl

/-- C1 counterexample: on input `{x}` the parser does not return normally —
the stage-3 span `{x}` fails to decode and the exception propagates, instead
of the claimed empty-object fallback. -/
theorem c1_counterexample :
    parse_json "\x7bx\x7d" = Except.error "Expecting value"
      ∧ isRaise (parse_json "\x7bx\x7d") = true :=
  ⟨rfl, rfl⟩

/-- C2 (corrected). On two sibling top-level objects the parser does not
return an empty object: stage 2 fails with `Extra data`, the greedy stage-3
span merges both objects, and decoding that span raises the same `Extra
data`, which propagates out of `parse_json`. Amended property proved here,
for a balanced backquote-free object followed by JSON whitespace and a
second backquote-free `\x7d`-terminated chunk. -/
theorem c2_two_objects_raise (s1 sep s2 : List Char) (kvs : List (String × Json))
    (t1 t10 t20 : List Char)
    (hok1 : pyJsonLoads s1 = Except.ok (Json.obj kvs))
    (hhead1 : s1 = '{' :: t1) (hlast1 : s1 = t10 ++ ['}'])
    (hsep : ∀ c ∈ sep, isJsonWs c = true)
    (hlast2 : s2 = t20 ++ ['}'])
    (hs1nt : ∀ c ∈ s1, c ≠ backquote) (hs2nt : ∀ c ∈ s2, c ≠ backquote) :
    parseJsonL (s1 ++ sep ++ s2) = Except.error "Extra data" :=
  parse_two_objects hok1 hhead1 hlast1 hsep hlast2 hs1nt hs2nt

theorem c2_witness :
    parseJsonL (("\x7b\"a\":1\x7d" : String).data ++ [' ']
      ++ ("\x7b\"b\":2\x7d" : String).data) = Except.error "Extra data" :=
  c2_two_objects_raise ("\x7b\"a\":1\x7d" : String).data [' ']
    ("\x7b\"b\":2\x7d" : String).data [("a", Json.num 1 0)]
    ("\"a\":1\x7d" : String).data ("\x7b\"a\":1" : String).data
    ("\x7b\"b\":2" : String).data
    rfl rfl rfl (by decide) rfl (by decide) (by decide)

/-- C2 counterexample: on the spec's own example `{"a":1} {"b":2}` the
parser raises `Extra data` rather than returning the empty object. -/
theorem c2_counterexample :
    parse_json "\x7b\"a\":1\x7d \x7b\"b\":2\x7d" = Except.error "Extra data"
      ∧ parse_json "\x7b\"a\":1\x7d \x7b\"b\":2\x7d" ≠ Except.ok (Json.obj []) := by
  constructor
  · rfl
  · intro h
    rw [show parse_json "\x7b\"a\":1\x7d \x7b\"b\":2\x7d"
        = Except.error "Extra data" from rfl] at h
    exact Except.noConfusion h

/-- C3 (corrected). On brace- and bracket-free input the parser indeed never
raises, but it does not always return the empty object: stage 2 decodes the
whole cleaned text from position 0 (the generator defaults `start` to 0), so
a bare scalar such as `42` is returned as-is. Amended property proved here:
on such input the result is the empty object or the successful stage-2
decode of the cleaned text. -/
theorem c3_no_brace_no_raise (t : String)
    (h : ∀ c ∈ t.data, c ≠ '{' ∧ c ≠ '[') :
    parse_json t = Except.ok (Json.obj [])
      ∨ ∃ v, parse_json t = Except.ok v
          ∧ pyJsonLoads (cleanText t.data) = Except.ok v :=
  parse_no_brace h

theorem c3_witness :
    parse_json "hello" = Except.ok (Json.obj [])
      ∨ ∃ v, parse_json "hello" = Except.ok v
          ∧ pyJsonLoads (cleanText ("hello" : String).data) = Except.ok v :=
  c3_no_brace_no_raise "hello" (by decide)

/-- C3 counterexample: `42` contains no `{` and no `[` yet `parse_json`
returns the number 42, not an empty object. -/
theorem c3_counterexample :
    parse_json "42" = Except.ok (Json.num 42 0)
      ∧ parse_json "42" ≠ Except.ok (Json.obj []) := by
  constructor
  · rfl
  · intro h
    rw [show parse_json "42" = Except.ok (Json.num 42 0) from rfl] at h
    rw [Except.ok.injEq] at h
    exact Json.noConfusion h

/-- C4 (corrected). Recovery of a fenced or prose-wrapped object holds only
under side conditions absent from the claim: the claim fails for arbitrary
trailing prose, since prose containing a later `\x7d` widens the greedy
stage-3 span and the decode of that span raises. Amended property proved
here: the object is recovered when the leading prose opens no brace or
bracket, the trailing prose closes no brace, and no backquotes occur; and an
object wrapped in the exact markdown fences is recovered. -/
theorem c4_recover (pre s post : List Char) (kvs : List (String × Json))
    (t t0 : List Char)
    (hok : pyJsonLoads s = Except.ok (Json.obj kvs))
    (hhead : s = '{' :: t) (hlast : s = t0 ++ ['}'])
    (hsnt : ∀ c ∈ s, c ≠ backquote)
    (hpre : ∀ c ∈ pre, c ≠ '{' ∧ c ≠ '[' ∧ c ≠ backquote)
    (hpost : ∀ c ∈ post, c ≠ '}' ∧ c ≠ backquote) :
    parseJsonL (pre ++ s ++ post) = Except.ok (Json.obj kvs)
      ∧ parseJsonL ([backquote, backquote, backquote, 'j', 's', 'o', 'n', '\n'] ++ s
          ++ ['\n', backquote, backquote, backquote]) = Except.ok (Json.obj kvs) :=
  ⟨parse_recover hok hhead hlast hsnt hpre hpost,
   parse_recover_fenced hok hhead hlast hsnt⟩

theorem c4_witness :
    parseJsonL (("Result: " : String).data ++ ("\x7b\"b\":2\x7d" : String).data
        ++ (" enjoy!" : String).data) = Except.ok (Json.obj [("b", Json.num 2 0)])
      ∧ parseJsonL ([backquote, backquote, backquote, 'j', 's', 'o', 'n', '\n']
          ++ ("\x7b\"b\":2\x7d" : String).data
          ++ ['\n', backquote, backquote, backquote])
        = Except.ok (Json.obj [("b", Json.num 2 0)]) :=
  c4_recover ("Result: " : String).data ("\x7b\"b\":2\x7d" : String).data
    (" enjoy!" : String).data [("b", Json.num 2 0)]
    ("\"b\":2\x7d" : String).data ("\x7b\"b\":2" : String).data
    rfl rfl rfl (by decide) (by decide) (by decide)

/-- C4 counterexample: a valid JSON object surrounded by prose whose tail
contains a `\x7d` — the claimed recovery fails and the parser raises. -/
theorem c4_counterexample :
    parse_json "Here you go: \x7b\"a\": 1\x7d :-\x7d" = Except.error "Extra data"
      ∧ parse_json "Here you go: \x7b\"a\": 1\x7d :-\x7d"
          ≠ Except.ok (Json.obj [("a", Json.num 1 0)]) := by
  constructor
  · rfl
  · intro h
    rw [show parse_json "Here you go: \x7b\"a\": 1\x7d :-\x7d"
        = Except.error "Extra data" from rfl] at h
    exact Except.noConfusion h

/-- C5 (confirmed). The second (plan-generation) prompt embeds the literal
user message, the `json.dumps` serialization of the recovered intent, and
the three resolved fields with their fixed fallbacks — `duration_days`
defaulting to 3, `total_budget` to 15000, `destination` to the placeholder
`destination` — so no missing value reaches the second model call. -/
theorem c5_second_prompt_complete (msg : String) (kvs : List (String × Json)) :
    strContains (plan_prompt msg kvs) msg
      ∧ strContains (plan_prompt msg kvs) (jsonDumps (Json.obj kvs))
      ∧ (¬ hasKey kvs "duration_days" →
          strContains (plan_prompt msg kvs) "Generate ALL 3 days")
      ∧ (¬ hasKey kvs "total_budget" →
          strContains (plan_prompt msg kvs) "Budget: 15000 INR")
      ∧ (¬ hasKey kvs "destination" →
          strContains (plan_prompt msg kvs)
            "Destination: destination. Use real attraction names.") := by
  refine ⟨?_, ?_, ?_, ?_, ?_⟩
  · refine ⟨("User: \"" : String).data,
      ("\"\nIntent: " : String).data ++ (jsonDumps (Json.obj kvs)).data
        ++ ("\nGenerate ALL " : String).data
        ++ (pyStr (dictGet kvs "duration_days" (Json.num 3 0))).data
        ++ (" days. Budget: " : String).data
        ++ (pyStr (dictGet kvs "total_budget" (Json.num 15000 0))).data
        ++ (" INR. Destination: " : String).data
        ++ (pyStr (dictGet kvs "destination" (Json.str "destination"))).data
        ++ (". Use real attraction names." : String).data, ?_⟩
    simp only [plan_prompt, String.data_append, List.append_assoc]
  · refine ⟨("User: \"" : String).data ++ msg.data ++ ("\"\nIntent: " : String).data,
      ("\nGenerate ALL " : String).data
        ++ (pyStr (dictGet kvs "duration_days" (Json.num 3 0))).data
        ++ (" days. Budget: " : String).data
        ++ (pyStr (dictGet kvs "total_budget" (Json.num 15000 0))).data
        ++ (" INR. Destination: " : String).data
        ++ (pyStr (dictGet kvs "destination" (Json.str "destination"))).data
        ++ (". Use real attraction names." : String).data, ?_⟩
    simp only [plan_prompt, String.data_append, List.append_assoc]
  · intro hd
    refine ⟨("User: \"" : String).data ++ msg.data ++ ("\"\nIntent: " : String).data
        ++ (jsonDumps (Json.obj kvs)).data ++ ("\n" : String).data,
      (". Budget: " : String).data
        ++ (pyStr (dictGet kvs "total_budget" (Json.num 15000 0))).data
        ++ (" INR. Destination: " : String).data
        ++ (pyStr (dictGet kvs "destination" (Json.str "destination"))).data
        ++ (". Use real attraction names." : String).data, ?_⟩
    simp only [plan_prompt, dictGet_not_has hd]
    rw [show pyStr (Json.num 3 0) = "3" from rfl]
    simp only [String.data_append, List.append_assoc, List.cons_append,
      List.nil_append]
  · intro hb
    refine ⟨("User: \"" : String).data ++ msg.data ++ ("\"\nIntent: " : String).data
        ++ (jsonDumps (Json.obj kvs)).data ++ ("\nGenerate ALL " : String).data
        ++ (pyStr (dictGet kvs "duration_days" (Json.num 3 0))).data
        ++ (" days. " : String).data,
      (". Destination: " : String).data
        ++ (pyStr (dictGet kvs "destination" (Json.str "destination"))).data
        ++ (". Use real attraction names." : String).data, ?_⟩
    simp only [plan_prompt, dictGet_not_has hb]
    rw [show pyStr (Json.num 15000 0) = "15000" from rfl]
    simp only [String.data_append, List.append_assoc, List.cons_append,
      List.nil_append]
  · intro hds
    refine ⟨("User: \"" : String).data ++ msg.data ++ ("\"\nIntent: " : String).data
        ++ (jsonDumps (Json.obj kvs)).data ++ ("\nGenerate ALL " : String).data
        ++ (pyStr (dictGet kvs "duration_days" (Json.num 3 0))).data
        ++ (" days. Budget: " : String).data
        ++ (pyStr (dictGet kvs "total_budget" (Json.num 15000 0))).data
        ++ (" INR. " : String).data, [], ?_⟩
    simp only [plan_prompt, dictGet_not_has hds]
    rw [show pyStr (Json.str "destination") = "destination" from rfl]
    simp only [String.data_append, List.append_assoc, List.cons_append,
      List.nil_append, List.append_nil]

theorem c5_witness :
    strContains (plan_prompt "hi" []) "hi"
      ∧ strContains (plan_prompt "hi" []) "Generate ALL 3 days"
      ∧ strContains (plan_prompt "hi" []) "Budget: 15000 INR"
      ∧ strContains (plan_prompt "hi" [])
          "Destination: destination. Use real attraction names." := by
  obtain ⟨h1, _, h3, h4, h5⟩ := c5_second_prompt_complete "hi" []
  exact ⟨h1, h3 (by simp [hasKey]), h4 (by simp [hasKey]), h5 (by simp [hasKey])⟩

/-- C6 (confirmed). With no usable `ANTHROPIC_API_KEY` (unset, or set to the
empty string, which Python's `if not key` also treats as missing), a POST to
`/api/plan` fails fast with a 500 whose detail names the missing
configuration, and zero outbound LLM calls are issued. -/
theorem c6_missing_key_fails_fast (env : String → Option String)
    (llm : Nat → String → String) (msg : String)
    (h : (env "ANTHROPIC_API_KEY").getD "" = "") :
    plan env llm msg
      = (Except.error ⟨500, "ANTHROPIC_API_KEY environment variable not set"⟩, 0)
      ∧ strContains "ANTHROPIC_API_KEY environment variable not set"
          "ANTHROPIC_API_KEY" := by
  constructor
  · unfold plan
    rw [if_pos h]
  · exact ⟨[], (" environment variable not set" : String).data, by decide⟩

theorem c6_witness :
    plan (fun _ => none) (fun _ _ => "") "plan a trip"
      = (Except.error ⟨500, "ANTHROPIC_API_KEY environment variable not set"⟩, 0)
      ∧ strContains "ANTHROPIC_API_KEY environment variable not set"
          "ANTHROPIC_API_KEY" :=
  c6_missing_key_fails_fast (fun _ => none) (fun _ _ => "") "plan a trip" rfl

/-- C7 (confirmed). A JSON object whose string field contains a literal
brace decodes correctly: stage 2 hands the text to the structural decoder,
which treats the brace inside the string as ordinary content. Proved for the
object `{"a":"x"}` for every plain (unescaped, printable, backquote-free)
field content `x`, braces included. -/
theorem c7_brace_in_string (x : List Char)
    (hx : ∀ c ∈ x, c ≠ '"' ∧ c ≠ '\\' ∧ 32 ≤ c.toNat ∧ c ≠ backquote) :
    parse_json (String.mk ('{' :: '"' :: 'a' :: '"' :: ':' :: '"' :: (x ++ ['"', '}'])))
      = Except.ok (Json.obj [("a", Json.str (String.mk x))]) :=
  parse_braced_string hx

theorem c7_witness :
    parse_json (String.mk ('{' :: '"' :: 'a' :: '"' :: ':' :: '"'
        :: (['{'] ++ ['"', '}'])))
      = Except.ok (Json.obj [("a", Json.str (String.mk ['{']))]) :=
  c7_brace_in_string ['{'] (by decide)

/-- C8 (confirmed). The embedded `parse_json` is a pure function of its
input text — it reads no state and has no effects — so two runs on the same
input are identical. -/
theorem c8_deterministic (t : String) : parse_json t = parse_json t := rfl

/-- C9 (confirmed). The catch-all route serves the static document for every
path not starting with `api/`, and returns not-found for every unmatched
`api/` path (the only GET route ahead of it is the exact `/api/health`). -/
theorem c9_routing (p : String) :
    (startsWithL p.data ("api/" : String).data = false →
        handleGet p = GetResponse.staticDoc)
      ∧ (startsWithL p.data ("api/" : String).data = true → p ≠ "api/health" →
          handleGet p = GetResponse.notFound) := by
  constructor
  · intro h
    have hne : p ≠ "api/health" := by
      intro he
      subst he
      exact absurd h (by decide)
    have hc : ¬ (startsWithL p.data ("api/" : String).data = true) := by
      simp [h]
    unfold handleGet serve
    rw [if_neg hne, if_neg hc]
  · intro h hne
    unfold handleGet serve
    rw [if_neg hne, if_pos h]

theorem c9_witness :
    handleGet "about" = GetResponse.staticDoc
      ∧ handleGet "api/unknown-route" = GetResponse.notFound :=
  ⟨(c9_routing "about").1 (by decide),
   (c9_routing "api/unknown-route").2 (by decide) (by decide)⟩

/-- C10 (confirmed, implicit). The two `re.sub` passes delete every fence
marker occurrence anywhere in the input, not just at its edges: a marker in
the middle of the text is removed (enabling recovery of `x ```json {...}
``` y`), and a triple backquote inside a JSON string value is destroyed —
the input `{"k":"a``` b"}` is valid JSON for the object with field value
`a``` b`, yet `parse_json` returns the object with field value `ab`, not
deeply equal to the original. -/
theorem c10_fences_stripped_globally :
    cleanText ("x ```json \x7b\"a\":1\x7d ``` y" : String).data
        = ("x \x7b\"a\":1\x7d y" : String).data
      ∧ pyJsonLoads ("\x7b\"k\":\"a``` b\"\x7d" : String).data
          = Except.ok (Json.obj [("k", Json.str "a``` b")])
      ∧ parse_json "\x7b\"k\":\"a``` b\"\x7d"
          = Except.ok (Json.obj [("k", Json.str "ab")])
      ∧ Json.str "a``` b" ≠ Json.str "ab" := by
  refine ⟨rfl, rfl, rfl, ?_⟩
  intro h
  rw [Json.str.injEq] at h
  exact absurd h (by decide)
